import Mathlib

/-!
# Verification of the cropsicle GrowCut segmentation engine

A shallow embedding of `src/cropsicle.c` (a minimal GrowCut foreground /
background segmentation tool) together with proofs about the claims of its
specification.

Modelling conventions:

* C `float` values are idealized as elements of a `LinearOrderedField`
  (instantiated at `ℚ` for concrete evaluation and at `ℝ` where the source
  computes square roots).  Numeric literals are translated exactly as
  written in the source, with one exception dictated by the float
  semantics: the constant `maxC = 1.732050808` rounds, in the program's
  32-bit floats, to exactly the same value as `sqrtf(3.0f)` (both are
  `0x3fddb3d7`; the decimal spelling differs from `sqrt 3` by about
  `4.3e-10`, some 275 times below the ulp there), so its faithful
  idealization is `Real.sqrt 3`, not the exact decimal.
* Flat C arrays (`float *`) become total functions `ℕ → α`; the C program
  indexes them with `int` expressions, which we mirror with `ℤ` arithmetic
  followed by `Int.toNat` (claim C9 establishes that all indices that are
  actually read or written are in range, so the `toNat` never truncates a
  negative value on a reachable access).
* `png_byte` channel values become `ℕ` (the source only compares and
  divides them, never overflows).
* The threaded iteration (`WITH_THREADS` is defined in the source, with
  `N_THREADS = 4`) is modelled by the per-worker write lists; every worker
  writes a set of cells disjoint from every other worker's and reads only
  the previous buffer, so the concurrent execution is equivalent to
  applying the five workers' writes in any order (proved in claim C6).
-/

namespace Cropsicle

/-- Table `nx8` from src/cropsicle.c line 281: x-offsets of the 8 compass
neighbors, in the fixed source order NW, N, NE, W, E, SW, S, SE. -/
def nx8 : ℕ → ℤ
  | 0 => -1 | 1 => 0 | 2 => 1 | 3 => -1 | 4 => 1 | 5 => -1 | 6 => 0 | 7 => 1
  | _ => 0

/-- Table `ny8` from src/cropsicle.c line 282: y-offsets of the 8 compass
neighbors. -/
def ny8 : ℕ → ℤ
  | 0 => -1 | 1 => -1 | 2 => -1 | 3 => 0 | 4 => 0 | 5 => 1 | 6 => 1 | 7 => 1
  | _ => 0

/-- Offset `neighbor_index_ofs [i] = nx8 [i] + ny8 [i] * image->width`
(process_iteration, line 422). -/
def neighbor_index_ofs (w : ℕ) (i : ℕ) : ℤ := nx8 i + ny8 i * (w : ℤ)

/-- The per-direction bounds test of `process_pixel_border` (line 309) and
`calc_g` (line 603):
`x + nx8[i] >= 0 && x + nx8[i] < width && y + ny8[i] >= 0 && y + ny8[i] < height`. -/
def inBoundsDir (w h x y i : ℕ) : Prop :=
  0 ≤ (x : ℤ) + nx8 i ∧ (x : ℤ) + nx8 i < (w : ℤ) ∧
  0 ≤ (y : ℤ) + ny8 i ∧ (y : ℤ) + ny8 i < (h : ℤ)

instance (w h x y i : ℕ) : Decidable (inBoundsDir w h x y i) := by
  unfold inBoundsDir; infer_instance

variable {α : Type} [LinearOrderedField α]

/-- Functions `process_pixel_neighbor_border` and `process_pixel_neighbor_internal`
(src/cropsicle.c lines 284-296 and 318-331; the two bodies are identical):
the candidate `g_array [index * 8 + i] * in [index + neighbor_index_ofs [i]]`
replaces the accumulated `out [index]` — and clears `converged` — exactly
when its absolute value strictly exceeds the current one. -/
def process_pixel_neighbor (w : ℕ) (overlay_in g_array : ℕ → α)
    (index i : ℕ) (acc : α × Bool) : α × Bool :=
  let c := g_array (index * 8 + i) *
    overlay_in ((index : ℤ) + neighbor_index_ofs w i).toNat
  if |c| > |acc.1| then (c, false) else acc

/-- Function `process_pixel_border` (src/cropsicle.c lines 298-316).  `out [index]`
starts at `in [index]`; each in-bounds direction `i` (in the fixed order
`0..7`) may then conquer it.  The Bool component is the worker's
`converged` contribution: `true` iff no replacement happened at this pixel. -/
def process_pixel_border (w h : ℕ) (overlay_in g_array : ℕ → α) (x y : ℕ) :
    α × Bool :=
  let index := w * y + x
  (List.range 8).foldl
    (fun acc i =>
      if inBoundsDir w h x y i then
        process_pixel_neighbor w overlay_in g_array index i acc
      else acc)
    (overlay_in index, true)

/-- Function `process_pixel_internal` (src/cropsicle.c lines 333-345): identical
update without the per-direction bounds test (the callers only pass
interior indices, for which every direction is in bounds). -/
def process_pixel_internal (w : ℕ) (overlay_in g_array : ℕ → α) (index : ℕ) :
    α × Bool :=
  (List.range 8).foldl
    (fun acc i => process_pixel_neighbor w overlay_in g_array index i acc)
    (overlay_in index, true)

/-- The interior scan shared by `process_iteration_thread`
(lines 362-383, with `skip = (N_THREADS - 1) * width`) and the sequential
`process_iteration` of the non-threaded build (lines 478-487, with
`skip = 0`): starting at `index`, while `index < index_max`, process the
`width - 2` interior cells of the current row, then advance by
`skip + 2` additional positions (the explicit `index += skip; index++` of
the body plus the `index++` of the `for`). -/
def interior_loop (w index_max skip index : ℕ) : List ℕ :=
  if _h : index < index_max then
    List.range' index (w - 2) ++
      interior_loop w index_max skip (index + (w - 2) + skip + 2)
  else []
termination_by index_max - index
decreasing_by omega

/-- The indices processed by interior worker `t` of
`process_iteration_thread` (src/cropsicle.c lines 362-383):
start index `width + thread_n * width + 1`, row stride
`(N_THREADS - 1) * width` with `N_THREADS = 4`. -/
def thread_indices (w h t : ℕ) : List ℕ :=
  interior_loop w ((h - 1) * w - 1) (3 * w) (w + t * w + 1)

/-- The indices processed by the interior scan of the sequential
`process_iteration` (src/cropsicle.c lines 478-487). -/
def seq_interior_indices (w h : ℕ) : List ℕ :=
  interior_loop w ((h - 1) * w - 1) 0 (w + 1)

/-- The border pixels in the order processed by
`process_iteration_borders_thread` (lines 386-408) and by the border part
of the sequential `process_iteration` (lines 491-505): top row, bottom
row, left column (rows `1..h-2`), right column (rows `1..h-2`). -/
def border_pixels (w h : ℕ) : List (ℕ × ℕ) :=
  (List.range w).map (fun x => (x, 0)) ++
  (List.range w).map (fun x => (x, h - 1)) ++
  (List.range' 1 (h - 2)).map (fun y => (0, y)) ++
  (List.range' 1 (h - 2)).map (fun y => (w - 1, y))

/-- Apply a list of `(index, value)` writes to a buffer, in order. -/
def apply_writes (buf : ℕ → α) (ws : List (ℕ × α)) : ℕ → α :=
  ws.foldl (fun b iv => Function.update b iv.1 iv.2) buf

/-- The writes performed by interior worker `t`. -/
def thread_writes (w h : ℕ) (a g : ℕ → α) (t : ℕ) : List (ℕ × α) :=
  (thread_indices w h t).map (fun i => (i, (process_pixel_internal w a g i).1))

/-- The writes performed by the border worker. -/
def border_writes (w h : ℕ) (a g : ℕ → α) : List (ℕ × α) :=
  (border_pixels w h).map
    (fun q => (w * q.2 + q.1, (process_pixel_border w h a g q.1 q.2).1))

/-- The `converged` result of interior worker `t`: initially `1`, zeroed by
any replacement at any of its pixels. -/
def thread_converged (w h : ℕ) (a g : ℕ → α) (t : ℕ) : Bool :=
  (thread_indices w h t).all (fun i => (process_pixel_internal w a g i).2)

/-- The `converged` result of the border worker. -/
def border_converged (w h : ℕ) (a g : ℕ → α) : Bool :=
  (border_pixels w h).all (fun q => (process_pixel_border w h a g q.1 q.2).2)

/-- Function `process_iteration` of the threaded build (src/cropsicle.c lines
410-459): four interior workers plus one border worker, their writes
applied to the `out` buffer (all write sets are pairwise disjoint, see
claim C6), and their `converged` results combined with `converged &= ret`. -/
def process_iteration (w h : ℕ) (a b g : ℕ → α) : (ℕ → α) × Bool :=
  (apply_writes b
      (thread_writes w h a g 0 ++ thread_writes w h a g 1 ++
       thread_writes w h a g 2 ++ thread_writes w h a g 3 ++
       border_writes w h a g),
   thread_converged w h a g 0 && thread_converged w h a g 1 &&
   thread_converged w h a g 2 && thread_converged w h a g 3 &&
   border_converged w h a g)

/-- Function `process_iteration` of the non-threaded build (src/cropsicle.c lines
463-508): one sequential pass over the interior followed by the four
border strips. -/
def process_iteration_nothreads (w h : ℕ) (a b g : ℕ → α) : (ℕ → α) × Bool :=
  (apply_writes b
      ((seq_interior_indices w h).map
          (fun i => (i, (process_pixel_internal w a g i).1)) ++
       border_writes w h a g),
   (seq_interior_indices w h).all (fun i => (process_pixel_internal w a g i).2) &&
   border_converged w h a g)

/-- The canonical per-pixel result of one synchronous step: pixel `p`
re-processed by the (bounds-checked) update rule from the `in` buffer.
Claim C6 shows both builds compute exactly this on every valid cell. -/
def pixel_value (w h : ℕ) (a g : ℕ → α) (p : ℕ) : α :=
  (process_pixel_border w h a g (p % w) (p / w)).1

/-- The double-buffered iteration sequence of `process_file`
(src/cropsicle.c lines 678-686): component `.1` is the buffer most
recently written, component `.2` the one written the step before (the
swap `tmp_array = a; a = b; b = tmp_array` makes the previous `in` buffer
the next `out` target). -/
def buffers_after (w h : ℕ) (g a b : ℕ → α) : ℕ → (ℕ → α) × (ℕ → α)
  | 0 => (a, b)
  | n + 1 =>
    let s := buffers_after w h g a b n
    ((process_iteration w h s.1 s.2 g).1, s.1)

/-- The iteration loop of `process_file` (src/cropsicle.c lines 678-686):
`while (!process_iteration (...) && (++iter < max_iter)) swap;` with
`max_iter = 2000`.  Returns the final `overlay_array_b` (the buffer the
last executed step wrote) and the number of `process_iteration` calls.
The first call corresponds to `iter = 0`; after a non-converged call the
loop continues only while `++iter < 2000`, hence `fuel = 1999` at the top
level. -/
def process_file_loop (step : (ℕ → α) → (ℕ → α) → (ℕ → α) × Bool) :
    ℕ → (ℕ → α) → (ℕ → α) → (ℕ → α) × ℕ
  | fuel, a, b =>
    let r := step a b
    if r.2 then (r.1, 1)
    else
      match fuel with
      | 0 => (r.1, 1)
      | f + 1 =>
        let s := process_file_loop step f r.1 a
        (s.1, s.2 + 1)

/-- A decoded RGBA pixel (`png_byte` channels, each in `0..255`). -/
structure Pixel where
  r : ℕ
  g : ℕ
  b : ℕ
  a : ℕ

/-- A decoded image (`Image` struct, src/cropsicle.c lines 68-75):
`rows y x` is the pixel at column `x` of row `y`. -/
structure Image where
  width : ℕ
  height : ℕ
  rows : ℕ → ℕ → Pixel

/-- Function `get_pixel` (src/cropsicle.c lines 220-237).  For out-of-bounds
coordinates the source sets `out[0..2] = 0xff` but then writes
`out[4] = 0x00` — one past the end of the caller's 4-byte buffer — and
leaves the alpha byte `out[3]` unwritten, so the alpha of the default
pixel is whatever was on the caller's stack; `junk_alpha` models that
indeterminate byte.  (Callers pass `x, y ≥ 0`, so only the upper-bound
tests are modelled.) -/
def get_pixel (junk_alpha : ℕ) (img : Image) (x y : ℕ) : Pixel :=
  if x < img.width ∧ y < img.height then img.rows y x
  else { r := 0xff, g := 0xff, b := 0xff, a := junk_alpha }

/-- The seed classifier of `process_file`'s init loop (src/cropsicle.c
lines 652-664): an overlay pixel with alpha strictly above `0x80` becomes
a seed; red strictly above green + 128 marks background (`-1.0`), any
other seed is foreground (`1.0`); non-seeds keep the `memset` value `0`. -/
def overlay_seed (p : Pixel) : α :=
  if p.a > 0x80 then (if p.r > p.g + 128 then -1 else 1) else 0

/-- The channel of a pixel at offset `c` within its 3-float color entry. -/
def Pixel.channel (p : Pixel) (c : ℕ) : ℕ :=
  match c with
  | 0 => p.r
  | 1 => p.g
  | 2 => p.b
  | _ => p.a

/-- The contents of `image_array` after the init loop of `process_file`
(src/cropsicle.c lines 638-666): position `(x + y*width)*3 + c` holds
channel `c` of the source pixel divided by `255.0`; positions beyond
`width*height*3` keep the `memset` value `0`. -/
def image_array_init (junk_alpha : ℕ) (img : Image) : ℕ → α :=
  fun k =>
    let x := k / 3 % img.width
    let y := k / 3 / img.width
    if k < img.width * img.height * 3 then
      ((get_pixel junk_alpha img x y).channel (k % 3) : α) / 255
    else 0

/-- The contents of `overlay_array_a` after the init loop of
`process_file` (src/cropsicle.c lines 638-666): the seed value of the
overlay pixel at the image coordinate (read through `get_pixel`, which
supplies the default pixel when the overlay is smaller than the image);
positions beyond `width*height` keep the `memset` value `0`. -/
def overlay_array_init (junk_alpha : ℕ) (w h : ℕ) (overlay : Image) : ℕ → α :=
  fun idx =>
    if idx < w * h then
      overlay_seed (get_pixel junk_alpha overlay (idx % w) (idx / w))
    else 0

/-- Table `nx9` from `blur_image_array` (src/cropsicle.c line 515): the pixel
itself first, then its 8 neighbors. -/
def blur_nx9 : ℕ → ℤ
  | 0 => 0 | 1 => -1 | 2 => 0 | 3 => 1 | 4 => -1 | 5 => 1 | 6 => -1 | 7 => 0
  | 8 => 1 | _ => 0

/-- Table `ny9` from `blur_image_array` (src/cropsicle.c line 516). -/
def blur_ny9 : ℕ → ℤ
  | 0 => 0 | 1 => -1 | 2 => -1 | 3 => -1 | 4 => 0 | 5 => 0 | 6 => 1 | 7 => 1
  | 8 => 1 | _ => 0

/-- The per-direction bounds test of `blur_image_array`
(src/cropsicle.c line 535). -/
def inBoundsDir9 (w h x y i : ℕ) : Prop :=
  0 ≤ (x : ℤ) + blur_nx9 i ∧ (x : ℤ) + blur_nx9 i < (w : ℤ) ∧
  0 ≤ (y : ℤ) + blur_ny9 i ∧ (y : ℤ) + blur_ny9 i < (h : ℤ)

instance (w h x y i : ℕ) : Decidable (inBoundsDir9 w h x y i) := by
  unfold inBoundsDir9; infer_instance

/-- The in-bounds members of the 9-point smoothing stencil at `(x, y)`,
in source order. -/
def blur_dirs (w h x y : ℕ) : List ℕ :=
  (List.range 9).filter (fun i => decide (inBoundsDir9 w h x y i))

/-- Function `blur_image_array` (src/cropsicle.c lines 512-555): every in-range
channel entry is replaced by the sum of the corresponding channel over the
in-bounds stencil members divided by their count (`n_pixels`); the sums
are accumulated into the zeroed `temp_array` while only the original
`array` is read, then `temp_array` is copied back.  Entries beyond
`width*height*3` do not exist in the C buffer and stay as given. -/
def blur_image_array (w h : ℕ) (array : ℕ → α) : ℕ → α :=
  fun k =>
    let x := k / 3 % w
    let y := k / 3 / w
    if k < w * h * 3 then
      ((blur_dirs w h x y).foldl
          (fun s i =>
            s + array ((((x : ℤ) + blur_nx9 i) +
                ((y : ℤ) + blur_ny9 i) * (w : ℤ)).toNat * 3 + k % 3))
          0) /
        ((blur_dirs w h x y).length : α)
    else array k

/-- Constant `maxC` from `calc_g` (src/cropsicle.c line 593).  The source
spells it as the decimal literal `1.732050808`; as a 32-bit `float` that
literal is bit-identical to `sqrtf(3.0f)` (both round to `0x3fddb3d7`,
the decimal differing from `sqrt 3` by roughly `4.3e-10`, far below the
ulp of `1.19e-7` there), so the faithful real idealization of the
constant the compiled program divides by is `Real.sqrt 3`. -/
noncomputable def maxC : ℝ := Real.sqrt 3

/-- The value `calc_g` (src/cropsicle.c lines 587-614) stores at
`g_array [pixel_index * 8 + i]` for an in-bounds direction `i`:
`1.0 - C / maxC` where `C` is the Euclidean distance between the 3-float
color entries of the pixel and the neighbor (`sqrtf` idealized as
`Real.sqrt`). -/
noncomputable def calc_g_entry (w : ℕ) (image_array : ℕ → ℝ) (x y i : ℕ) : ℝ :=
  let pixel_offset := (x + y * w) * 3
  let neighbor_offset :=
    (((x : ℤ) + nx8 i) + ((y : ℤ) + ny8 i) * (w : ℤ)).toNat * 3
  let C := Real.sqrt
    ((image_array pixel_offset - image_array neighbor_offset) *
       (image_array pixel_offset - image_array neighbor_offset) +
     (image_array (pixel_offset + 1) - image_array (neighbor_offset + 1)) *
       (image_array (pixel_offset + 1) - image_array (neighbor_offset + 1)) +
     (image_array (pixel_offset + 2) - image_array (neighbor_offset + 2)) *
       (image_array (pixel_offset + 2) - image_array (neighbor_offset + 2)))
  1 - C / maxC

/-- The contents of `g_array` after `process_file`'s `calc_g` loop
(src/cropsicle.c lines 670-674): entry `pixel_index * 8 + i` is written
for every pixel and every in-bounds direction; all other entries keep the
uninitialized `malloc` contents (`junkG`) — the `memset` of `g_array` is
compiled out (`#if 0`, lines 632-634). -/
noncomputable def g_array_full (junkG : ℕ → ℝ) (w h : ℕ)
    (image_array : ℕ → ℝ) : ℕ → ℝ :=
  fun k =>
    let idx := k / 8
    if idx < w * h ∧ inBoundsDir w h (idx % w) (idx / w) (k % 8) then
      calc_g_entry w image_array (idx % w) (idx / w) (k % 8)
    else junkG k

/-- The configuration errors named by the specification.  `process_file`
in the source has no failure path at all (its only caller aborts earlier
solely for file-format reasons), so the embedding wraps its result in
`Except` to make the absence of any such report expressible: no branch
ever produces `.error`. -/
inductive ConfigError where
  | mismatchedDimensions : ConfigError
  | zeroSized : ConfigError

/-- Function `process_file` (src/cropsicle.c lines 616-708): build the color field,
smooth it, precompute affinities, initialize seeds, run the automaton to
convergence or the 2000-iteration ceiling, then set each in-range pixel's
alpha to `0xff` when the final strength is strictly positive and `0x00`
otherwise.  All fields are sized by the *image* dimensions; the overlay
dimensions are never examined. -/
noncomputable def process_file (junk_alpha : ℕ) (junkG : ℕ → ℝ)
    (image overlay : Image) : Except ConfigError Image :=
  let w := image.width
  let h := image.height
  let image_array :=
    blur_image_array w h (image_array_init (α := ℝ) junk_alpha image)
  let g := g_array_full junkG w h image_array
  let a0 := overlay_array_init (α := ℝ) junk_alpha w h overlay
  let b0 : ℕ → ℝ := fun _ => 0
  let r := process_file_loop (fun x y => process_iteration w h x y g) 1999 a0 b0
  .ok
    { width := w, height := h,
      rows := fun y x =>
        if x < w ∧ y < h then
          let p := get_pixel junk_alpha image x y
          { r := p.r, g := p.g, b := p.b,
            a := if r.1 (x + y * w) > 0 then 0xff else 0x00 }
        else image.rows y x }

/-! ## The conquest fold, abstractly -/

/-- One conquest test on a bare value. -/
def absStep (a c : α) : α := if |c| > |a| then c else a

/-- One conquest test carrying the `converged` flag. -/
def absStepFlag (acc : α × Bool) (c : α) : α × Bool :=
  if |c| > |acc.1| then (c, false) else acc

/-- The conquest fold over a list of candidates. -/
def foldAbs (a0 : α) (cs : List α) : α := cs.foldl absStep a0

/-- The in-bounds directions at `(x, y)`, in source order. -/
def border_dirs (w h x y : ℕ) : List ℕ :=
  (List.range 8).filter (fun i => decide (inBoundsDir w h x y i))

/-- The attack candidate of direction `i` against cell `index`:
`g_array [index * 8 + i] * in [index + neighbor_index_ofs [i]]`. -/
def cand (w : ℕ) (overlay_in g_array : ℕ → α) (index i : ℕ) : α :=
  g_array (index * 8 + i) *
    overlay_in ((index : ℤ) + neighbor_index_ofs w i).toNat

/-- The candidates considered at pixel `(x, y)` by the bounds-checked
update, in source order. -/
def pixel_cands (w h : ℕ) (overlay_in g_array : ℕ → α) (x y : ℕ) : List α :=
  (border_dirs w h x y).map (cand w overlay_in g_array (w * y + x))

/-- The candidate list of pixel `(x, y)` in the specification's
coordinate form: for each in-bounds direction, the affinity toward the
neighbor times the neighbor's strength read at the neighbor's own
coordinates. -/
def claim_cands (w h : ℕ) (overlay_in g_array : ℕ → α) (x y : ℕ) : List α :=
  (border_dirs w h x y).map fun i =>
    g_array ((w * y + x) * 8 + i) *
      overlay_in ((((y : ℤ) + ny8 i) * (w : ℤ) + ((x : ℤ) + nx8 i)).toNat)

/-- The flat indices written by the threaded build, worker order. -/
def processed_indices (w h : ℕ) : List ℕ :=
  thread_indices w h 0 ++ thread_indices w h 1 ++ thread_indices w h 2 ++
    thread_indices w h 3 ++ (border_pixels w h).map (fun q => w * q.2 + q.1)

/-- The flat indices written by the non-threaded build, scan order. -/
def seq_processed_indices (w h : ℕ) : List ℕ :=
  seq_interior_indices w h ++ (border_pixels w h).map (fun q => w * q.2 + q.1)

lemma foldAbs_nil (a0 : α) : foldAbs a0 [] = a0 := rfl

lemma foldAbs_cons (a0 c : α) (cs : List α) :
    foldAbs a0 (c :: cs) = foldAbs (absStep a0 c) cs := rfl

/-- The flag-carrying fold computes the same value as the bare fold. -/
lemma foldFlag_fst (cs : List α) (a0 : α) (fl : Bool) :
    (cs.foldl absStepFlag (a0, fl)).1 = foldAbs a0 cs := by
  induction cs generalizing a0 fl with
  | nil => rfl
  | cons c cs ih =>
    rw [List.foldl_cons, foldAbs_cons]
    unfold absStepFlag absStep
    split <;> exact ih _ _

/-- A false flag stays false. -/
lemma foldFlag_false (cs : List α) (a0 : α) :
    (cs.foldl absStepFlag (a0, false)).2 = false := by
  induction cs generalizing a0 with
  | nil => rfl
  | cons c cs ih =>
    rw [List.foldl_cons]
    unfold absStepFlag
    split <;> exact ih _

lemma absStep_pos (a0 c : α) (hc : |c| > |a0|) : absStep a0 c = c := by
  simp [absStep, hc]

lemma absStep_neg (a0 c : α) (hc : ¬|c| > |a0|) : absStep a0 c = a0 := by
  simp [absStep, hc]

lemma absStepFlag_pos (a0 : α) (fl : Bool) (c : α) (hc : |c| > |a0|) :
    absStepFlag (a0, fl) c = (c, false) := by
  simp [absStepFlag, hc]

lemma absStepFlag_neg (a0 : α) (fl : Bool) (c : α) (hc : ¬|c| > |a0|) :
    absStepFlag (a0, fl) c = (a0, fl) := by
  simp [absStepFlag, hc]

/-- The fold result is the start value or one of the candidates. -/
lemma foldAbs_mem (cs : List α) (a0 : α) : foldAbs a0 cs ∈ a0 :: cs := by
  induction cs generalizing a0 with
  | nil => simp [foldAbs]
  | cons c cs ih =>
    rw [foldAbs_cons]
    by_cases hc : |c| > |a0|
    · rw [absStep_pos a0 c hc]
      exact List.mem_cons_of_mem _ (ih c)
    · rw [absStep_neg a0 c hc]
      rcases List.mem_cons.1 (ih a0) with h | h
      · rw [h]; exact List.mem_cons_self _ _
      · exact List.mem_cons_of_mem _ (List.mem_cons_of_mem _ h)

/-- The fold result dominates the start value and every candidate in
absolute value. -/
lemma foldAbs_dominates (cs : List α) (a0 : α) :
    ∀ c ∈ a0 :: cs, |c| ≤ |foldAbs a0 cs| := by
  induction cs generalizing a0 with
  | nil =>
    intro c hc
    rw [List.mem_singleton] at hc
    rw [hc]; exact le_refl _
  | cons c cs ih =>
    have hstep : |a0| ≤ |absStep a0 c| ∧ |c| ≤ |absStep a0 c| := by
      by_cases hc : |c| > |a0|
      · rw [absStep_pos a0 c hc]; exact ⟨le_of_lt hc, le_refl _⟩
      · rw [absStep_neg a0 c hc]; exact ⟨le_refl _, not_lt.1 hc⟩
    have hs : |absStep a0 c| ≤ |foldAbs (absStep a0 c) cs| :=
      ih _ _ (List.mem_cons_self _ _)
    intro e he
    rw [foldAbs_cons]
    rcases List.mem_cons.1 he with rfl | he
    · exact le_trans hstep.1 hs
    rcases List.mem_cons.1 he with rfl | he
    · exact le_trans hstep.2 hs
    · exact ih _ _ (List.mem_cons_of_mem _ he)

/-- If no candidate strictly beats the start value, the fold keeps it. -/
lemma foldAbs_eq_self (cs : List α) (a0 : α) (h : ∀ c ∈ cs, |c| ≤ |a0|) :
    foldAbs a0 cs = a0 := by
  induction cs with
  | nil => rfl
  | cons c cs ih =>
    rw [foldAbs_cons, absStep_neg a0 c (not_lt.2 (h c (List.mem_cons_self _ _)))]
    exact ih fun e he => h e (List.mem_cons_of_mem _ he)

/-- The flag is `true` iff the fold kept the start value. -/
lemma foldFlag_snd_iff (cs : List α) (a0 : α) :
    (cs.foldl absStepFlag (a0, true)).2 = true ↔ foldAbs a0 cs = a0 := by
  induction cs generalizing a0 with
  | nil => simp [foldAbs]
  | cons c cs ih =>
    rw [List.foldl_cons, foldAbs_cons]
    by_cases hc : |c| > |a0|
    · rw [absStepFlag_pos a0 true c hc, absStep_pos a0 c hc]
      simp only [foldFlag_false, Bool.false_eq_true, false_iff]
      intro hEq
      have hd := foldAbs_dominates cs c c (List.mem_cons_self _ _)
      rw [hEq] at hd
      exact absurd (lt_of_lt_of_le hc hd) (lt_irrefl _)
    · rw [absStepFlag_neg a0 true c hc, absStep_neg a0 c hc]
      exact ih a0

/-- First-conqueror characterization of the conquest fold: either nothing
beats the start value and it survives, or the result is the *first*
candidate of maximal absolute value — every earlier entry is strictly
smaller in absolute value, every later one no larger. -/
lemma foldAbs_first_max (cs : List α) (a0 : α) :
    (foldAbs a0 cs = a0 ∧ ∀ c ∈ cs, |c| ≤ |a0|) ∨
    (∃ l₁ c l₂, cs = l₁ ++ c :: l₂ ∧ foldAbs a0 cs = c ∧ |a0| < |c| ∧
      (∀ e ∈ l₁, |e| < |c|) ∧ (∀ e ∈ l₂, |e| ≤ |c|)) := by
  induction cs generalizing a0 with
  | nil => exact Or.inl ⟨rfl, by simp⟩
  | cons c cs ih =>
    rw [foldAbs_cons]
    by_cases hc : |c| > |a0|
    · rw [absStep_pos a0 c hc]
      right
      rcases ih c with ⟨hEq, hAll⟩ | ⟨l₁, d, l₂, hSplit, hEq, hlt, hPre, hPost⟩
      · exact ⟨[], c, cs, rfl, hEq, hc, by simp, hAll⟩
      · refine ⟨c :: l₁, d, l₂, by rw [hSplit]; rfl, hEq,
          lt_trans hc hlt, ?_, hPost⟩
        intro e he
        rcases List.mem_cons.1 he with rfl | he
        · exact hlt
        · exact hPre e he
    · rw [absStep_neg a0 c hc]
      rcases ih a0 with ⟨hEq, hAll⟩ | ⟨l₁, d, l₂, hSplit, hEq, hlt, hPre, hPost⟩
      · left
        refine ⟨hEq, ?_⟩
        intro e he
        rcases List.mem_cons.1 he with rfl | he
        · exact not_lt.1 hc
        · exact hAll e he
      · right
        refine ⟨c :: l₁, d, l₂, by rw [hSplit]; rfl, hEq, hlt, ?_, hPost⟩
        intro e he
        rcases List.mem_cons.1 he with rfl | he
        · exact lt_of_le_of_lt (not_lt.1 hc) hlt
        · exact hPre e he

/-! ## Candidate lists of a pixel -/

lemma process_pixel_neighbor_eq (w : ℕ) (a g : ℕ → α) (index i : ℕ)
    (acc : α × Bool) :
    process_pixel_neighbor w a g index i acc =
      absStepFlag acc (cand w a g index i) := rfl

lemma foldl_guard (l : List ℕ) (P : ℕ → Prop) [DecidablePred P] (f : ℕ → α)
    (acc : α × Bool) :
    l.foldl (fun acc i => if P i then absStepFlag acc (f i) else acc) acc =
      ((l.filter fun i => decide (P i)).map f).foldl absStepFlag acc := by
  induction l generalizing acc with
  | nil => rfl
  | cons i l ih =>
    by_cases hp : P i
    · rw [List.foldl_cons, if_pos hp, List.filter_cons,
        if_pos (by simpa using hp), List.map_cons, List.foldl_cons]
      exact ih _
    · rw [List.foldl_cons, if_neg hp, List.filter_cons,
        if_neg (by simpa using hp)]
      exact ih _

/-- The bounds-checked pixel update is the conquest fold over its
candidate list. -/
lemma process_pixel_border_eq (w h : ℕ) (a g : ℕ → α) (x y : ℕ) :
    process_pixel_border w h a g x y =
      (pixel_cands w h a g x y).foldl absStepFlag (a (w * y + x), true) := by
  unfold process_pixel_border pixel_cands border_dirs
  simp only [process_pixel_neighbor_eq]
  exact foldl_guard _ _ _ _

/-- The unchecked pixel update is the conquest fold over all 8 candidates. -/
lemma process_pixel_internal_eq (w : ℕ) (a g : ℕ → α) (index : ℕ) :
    process_pixel_internal w a g index =
      ((List.range 8).map (cand w a g index)).foldl absStepFlag
        (a index, true) := by
  unfold process_pixel_internal
  simp only [process_pixel_neighbor_eq]
  rw [List.foldl_map]

lemma process_pixel_border_fst (w h : ℕ) (a g : ℕ → α) (x y : ℕ) :
    (process_pixel_border w h a g x y).1 =
      foldAbs (a (w * y + x)) (pixel_cands w h a g x y) := by
  rw [process_pixel_border_eq]; exact foldFlag_fst _ _ _

/-- A pixel's `converged` contribution is `true` iff the update kept the
cell's previous value. -/
lemma process_pixel_border_snd (w h : ℕ) (a g : ℕ → α) (x y : ℕ) :
    ((process_pixel_border w h a g x y).2 = true ↔
      (process_pixel_border w h a g x y).1 = a (w * y + x)) := by
  rw [process_pixel_border_eq, foldFlag_fst _ _ _, foldFlag_snd_iff]

lemma process_pixel_internal_fst (w : ℕ) (a g : ℕ → α) (index : ℕ) :
    (process_pixel_internal w a g index).1 =
      foldAbs (a index) ((List.range 8).map (cand w a g index)) := by
  rw [process_pixel_internal_eq]; exact foldFlag_fst _ _ _

lemma process_pixel_internal_snd (w : ℕ) (a g : ℕ → α) (index : ℕ) :
    ((process_pixel_internal w a g index).2 = true ↔
      (process_pixel_internal w a g index).1 = a index) := by
  rw [process_pixel_internal_eq, foldFlag_fst _ _ _, foldFlag_snd_iff]

/-- At a pixel with all eight neighbors in bounds, the per-direction
bounds tests all pass. -/
lemma inBoundsDir_of_interior (w h x y : ℕ) (hx1 : 1 ≤ x) (hx2 : x + 2 ≤ w)
    (hy1 : 1 ≤ y) (hy2 : y + 2 ≤ h) (i : ℕ) (hi : i < 8) :
    inBoundsDir w h x y i := by
  have hnx : -1 ≤ nx8 i ∧ nx8 i ≤ 1 := by
    interval_cases i <;> simp [nx8]
  have hny : -1 ≤ ny8 i ∧ ny8 i ≤ 1 := by
    interval_cases i <;> simp [ny8]
  refine ⟨?_, ?_, ?_, ?_⟩ <;> omega

/-- At an interior pixel the unchecked and the bounds-checked updates
agree. -/
lemma process_pixel_internal_eq_border (w h : ℕ) (a g : ℕ → α) (x y : ℕ)
    (hx1 : 1 ≤ x) (hx2 : x + 2 ≤ w) (hy1 : 1 ≤ y) (hy2 : y + 2 ≤ h) :
    process_pixel_internal w a g (w * y + x) =
      process_pixel_border w h a g x y := by
  rw [process_pixel_internal_eq, process_pixel_border_eq]
  have hall : border_dirs w h x y = List.range 8 := by
    refine List.filter_eq_self.mpr fun i hi => ?_
    simpa using inBoundsDir_of_interior w h x y hx1 hx2 hy1 hy2 i
      (List.mem_range.1 hi)
  rw [pixel_cands, hall]

/-- Decoding the flat index of a pixel with `x < w` recovers its
coordinates. -/
lemma pixel_value_coords (w h : ℕ) (a g : ℕ → α) (x y : ℕ) (hx : x < w) :
    pixel_value w h a g (w * y + x) = (process_pixel_border w h a g x y).1 := by
  unfold pixel_value
  have hm : (w * y + x) % w = x := by
    rw [Nat.mul_add_mod, Nat.mod_eq_of_lt hx]
  have hd : (w * y + x) / w = y := by
    rw [Nat.add_comm, Nat.add_mul_div_left _ _ (by omega : 0 < w),
      Nat.div_eq_of_lt hx, Nat.zero_add]
  rw [hm, hd]

/-! ## Index sets of the interior scans -/

lemma mem_interior_loop (w im skip : ℕ) (index p : ℕ) :
    p ∈ interior_loop w im skip index ↔
      ∃ k j, j < w - 2 ∧ p = index + k * (w - 2 + skip + 2) + j ∧
        index + k * (w - 2 + skip + 2) < im := by
  have key : ∀ n index, im - index ≤ n →
      (p ∈ interior_loop w im skip index ↔
        ∃ k j, j < w - 2 ∧ p = index + k * (w - 2 + skip + 2) + j ∧
          index + k * (w - 2 + skip + 2) < im) := by
    intro n
    induction n with
    | zero =>
      intro index hle
      rw [interior_loop, dif_neg (by omega)]
      simp only [List.not_mem_nil, false_iff]
      rintro ⟨k, j, _hj, _hp, hcond⟩
      have hk : index ≤ index + k * (w - 2 + skip + 2) := Nat.le_add_right _ _
      omega
    | succ n ih =>
      intro index hle
      by_cases hlt : index < im
      · rw [interior_loop, dif_pos hlt, List.mem_append, List.mem_range'_1,
          ih (index + (w - 2) + skip + 2) (by omega)]
        constructor
        · rintro (⟨h1, h2⟩ | ⟨k, j, hj, hp, hcond⟩)
          · exact ⟨0, p - index, by omega, by omega, by simpa using hlt⟩
          · refine ⟨k + 1, j, hj, ?_, ?_⟩
            · have hm : (k + 1) * (w - 2 + skip + 2) =
                k * (w - 2 + skip + 2) + (w - 2 + skip + 2) := by ring
              omega
            · have hm : (k + 1) * (w - 2 + skip + 2) =
                k * (w - 2 + skip + 2) + (w - 2 + skip + 2) := by ring
              omega
        · rintro ⟨k, j, hj, hp, hcond⟩
          cases k with
          | zero => exact Or.inl (by omega)
          | succ k =>
            refine Or.inr ⟨k, j, hj, ?_, ?_⟩
            · have hm : (k + 1) * (w - 2 + skip + 2) =
                k * (w - 2 + skip + 2) + (w - 2 + skip + 2) := by ring
              omega
            · have hm : (k + 1) * (w - 2 + skip + 2) =
                k * (w - 2 + skip + 2) + (w - 2 + skip + 2) := by ring
              omega
      · rw [interior_loop, dif_neg hlt]
        simp only [List.not_mem_nil, false_iff]
        rintro ⟨k, j, _hj, _hp, hcond⟩
        have hk : index ≤ index + k * (w - 2 + skip + 2) := Nat.le_add_right _ _
        omega
  exact key im index (by omega)

/-- Condition for the interior scans to enter the row starting at
`m * w + 1`. -/
lemma row_cond_iff (w h m : ℕ) (hw : 3 ≤ w) (hm : 1 ≤ m) :
    m * w + 1 < (h - 1) * w - 1 ↔ m + 2 ≤ h := by
  constructor
  · intro hc
    by_contra hcon
    have h1 : (h - 1) * w ≤ m * w := mul_le_mul_right' (by omega) w
    omega
  · intro hc
    have h1 : (m + 1) * w ≤ (h - 1) * w := mul_le_mul_right' (by omega) w
    have h2 : (m + 1) * w = m * w + w := by ring
    omega

/-- The sequential interior scan visits exactly the interior pixels. -/
lemma mem_seq_interior_indices (w h p : ℕ) :
    p ∈ seq_interior_indices w h ↔
      ∃ x y, 1 ≤ x ∧ x + 2 ≤ w ∧ 1 ≤ y ∧ y + 2 ≤ h ∧ p = y * w + x := by
  rw [seq_interior_indices, mem_interior_loop]
  by_cases hw : 3 ≤ w
  · have hs : w - 2 + 0 + 2 = w := by omega
    simp only [hs]
    constructor
    · rintro ⟨k, j, hj, hp, hcond⟩
      have hm : (k + 1) * w = k * w + w := by ring
      refine ⟨j + 1, k + 1, by omega, by omega, by omega, ?_, by omega⟩
      exact (row_cond_iff w h (k + 1) hw (by omega)).1 (by omega)
    · rintro ⟨x, y, hx1, hx2, hy1, hy2, hp⟩
      obtain ⟨k, rfl⟩ : ∃ k, y = k + 1 := ⟨y - 1, by omega⟩
      have hm : (k + 1) * w = k * w + w := by ring
      have hr := (row_cond_iff w h (k + 1) hw (by omega)).2 hy2
      exact ⟨k, x - 1, by omega, by omega, by omega⟩
  · constructor
    · rintro ⟨k, j, hj, _, _⟩; omega
    · rintro ⟨x, y, hx1, hx2, _, _, _⟩; omega

/-- Interior worker `t` visits exactly the interior pixels of the rows
congruent to `t + 1` modulo 4. -/
lemma mem_thread_indices (w h t p : ℕ) (ht : t < 4) :
    p ∈ thread_indices w h t ↔
      ∃ x y, 1 ≤ x ∧ x + 2 ≤ w ∧ 1 ≤ y ∧ y + 2 ≤ h ∧
        y % 4 = (t + 1) % 4 ∧ p = y * w + x := by
  rw [thread_indices, mem_interior_loop]
  by_cases hw : 3 ≤ w
  · have hs : w - 2 + 3 * w + 2 = 4 * w := by omega
    simp only [hs]
    constructor
    · rintro ⟨k, j, hj, hp, hcond⟩
      have hm : (t + 1 + 4 * k) * w = t * w + w + k * (4 * w) := by ring
      refine ⟨j + 1, t + 1 + 4 * k, by omega, by omega, by omega, ?_, by omega,
        by omega⟩
      exact (row_cond_iff w h (t + 1 + 4 * k) hw (by omega)).1 (by omega)
    · rintro ⟨x, y, hx1, hx2, hy1, hy2, hmod, hp⟩
      obtain ⟨k, rfl⟩ : ∃ k, y = t + 1 + 4 * k := ⟨(y - t - 1) / 4, by omega⟩
      have hm : (t + 1 + 4 * k) * w = t * w + w + k * (4 * w) := by ring
      have hr := (row_cond_iff w h (t + 1 + 4 * k) hw (by omega)).2 hy2
      exact ⟨k, x - 1, by omega, by omega, by omega⟩
  · constructor
    · rintro ⟨k, j, hj, _, _⟩; omega
    · rintro ⟨x, y, hx1, hx2, _, _, _, _⟩; omega

/-- Membership in the border scan list. -/
lemma mem_border_pixels (w h x y : ℕ) :
    (x, y) ∈ border_pixels w h ↔
      (x < w ∧ (y = 0 ∨ y = h - 1)) ∨
      (1 ≤ y ∧ y + 2 ≤ h ∧ (x = 0 ∨ x = w - 1)) := by
  simp only [border_pixels, List.mem_append, List.mem_map, List.mem_range,
    List.mem_range'_1, Prod.mk.injEq]
  constructor
  · rintro ((((⟨x', hx', rfl, rfl⟩ | ⟨x', hx', rfl, rfl⟩) |
      ⟨y', ⟨hy1, hy2⟩, rfl, rfl⟩) | ⟨y', ⟨hy1, hy2⟩, rfl, rfl⟩)) <;> omega
  · rintro (⟨hx, rfl | rfl⟩ | ⟨hy1, hy2, rfl | rfl⟩)
    · exact Or.inl (Or.inl (Or.inl ⟨x, hx, rfl, rfl⟩))
    · exact Or.inl (Or.inl (Or.inr ⟨x, hx, rfl, rfl⟩))
    · exact Or.inl (Or.inr ⟨y, ⟨hy1, by omega⟩, rfl, rfl⟩)
    · exact Or.inr ⟨y, ⟨hy1, by omega⟩, rfl, rfl⟩

/-! ## Write lists and the synchronous characterization of one step -/

lemma apply_writes_cons (buf : ℕ → α) (q : ℕ × α) (ws : List (ℕ × α)) :
    apply_writes buf (q :: ws) =
      apply_writes (Function.update buf q.1 q.2) ws := rfl

/-- When every queued write carries the value `V` of its own index — as is
the case here, each cell's new value depending only on the read-only `in`
buffer — applying the writes in any order yields the same buffer, looked
up by membership. -/
lemma apply_writes_value (ws : List (ℕ × α)) (V : ℕ → α) (buf : ℕ → α)
    (hw : ∀ q ∈ ws, q.2 = V q.1) :
    apply_writes buf ws =
      fun p => if p ∈ ws.map Prod.fst then V p else buf p := by
  induction ws generalizing buf with
  | nil => funext p; simp [apply_writes]
  | cons q ws ih =>
    have hq : q.2 = V q.1 := hw q (List.mem_cons_self _ _)
    rw [apply_writes_cons, ih _ fun e he => hw e (List.mem_cons_of_mem _ he)]
    funext p
    simp only [List.map_cons, List.mem_cons]
    by_cases hp : p ∈ ws.map Prod.fst
    · rw [if_pos hp, if_pos (Or.inr hp)]
    · rw [if_neg hp]
      by_cases hpq : p = q.1
      · rw [if_pos (Or.inl hpq), hpq, Function.update_same, hq]
      · rw [if_neg (by tauto), Function.update_noteq hpq]

lemma index_lt_size (w h x y : ℕ) (hx : x < w) (hy : y < h) :
    y * w + x < w * h := by
  have h1 : (y + 1) * w ≤ h * w := mul_le_mul_right' (by omega) w
  have h2 : (y + 1) * w = y * w + w := by ring
  have h3 : h * w = w * h := by ring
  omega

lemma thread_writes_map_fst (w h : ℕ) (a g : ℕ → α) (t : ℕ) :
    (thread_writes w h a g t).map Prod.fst = thread_indices w h t := by
  rw [thread_writes, List.map_map]
  exact List.map_id _

lemma border_writes_map_fst (w h : ℕ) (a g : ℕ → α) :
    (border_writes w h a g).map Prod.fst =
      (border_pixels w h).map (fun q => w * q.2 + q.1) := by
  rw [border_writes, List.map_map]
  rfl

/-- Every write queued by interior worker `t` carries the canonical
per-pixel value of its index. -/
lemma thread_writes_value (w h : ℕ) (a g : ℕ → α) (t : ℕ) (ht : t < 4) :
    ∀ q ∈ thread_writes w h a g t, q.2 = pixel_value w h a g q.1 := by
  intro q hq
  rw [thread_writes, List.mem_map] at hq
  obtain ⟨i, hi, rfl⟩ := hq
  obtain ⟨x, y, hx1, hx2, hy1, hy2, _, rfl⟩ := (mem_thread_indices w h t i ht).1 hi
  show (process_pixel_internal w a g (y * w + x)).1 = pixel_value w h a g (y * w + x)
  have hc : y * w + x = w * y + x := by ring
  rw [hc, process_pixel_internal_eq_border w h a g x y hx1 hx2 hy1 hy2,
    pixel_value_coords w h a g x y (by omega)]

/-- Every write queued by the sequential interior scan carries the
canonical per-pixel value of its index. -/
lemma seq_writes_value (w h : ℕ) (a g : ℕ → α) :
    ∀ q ∈ (seq_interior_indices w h).map
        (fun i => (i, (process_pixel_internal w a g i).1)),
      q.2 = pixel_value w h a g q.1 := by
  intro q hq
  rw [List.mem_map] at hq
  obtain ⟨i, hi, rfl⟩ := hq
  obtain ⟨x, y, hx1, hx2, hy1, hy2, rfl⟩ := (mem_seq_interior_indices w h i).1 hi
  show (process_pixel_internal w a g (y * w + x)).1 = pixel_value w h a g (y * w + x)
  have hc : y * w + x = w * y + x := by ring
  rw [hc, process_pixel_internal_eq_border w h a g x y hx1 hx2 hy1 hy2,
    pixel_value_coords w h a g x y (by omega)]

/-- In a zero-width or zero-height grid no direction is ever in bounds. -/
lemma border_dirs_eq_nil (w h x y : ℕ) (hwh : w = 0 ∨ h = 0) :
    border_dirs w h x y = [] := by
  refine List.filter_eq_nil_iff.mpr fun i _ => ?_
  simp only [decide_eq_true_eq]
  rintro ⟨h1, h2, h3, h4⟩
  rcases hwh with rfl | rfl <;> omega

/-- The value computed at a border-scan pixel is the canonical per-pixel
value of its flat index. -/
lemma border_fst_eq (w h : ℕ) (a g : ℕ → α) (x y : ℕ)
    (hxy : (x, y) ∈ border_pixels w h) :
    (process_pixel_border w h a g x y).1 = pixel_value w h a g (w * y + x) := by
  by_cases hw : w = 0
  · subst hw
    have hx0 : x = 0 := by
      rcases (mem_border_pixels 0 h x y).1 hxy with ⟨hx, _⟩ | ⟨_, _, hx | hx⟩ <;>
        omega
    subst hx0
    unfold pixel_value
    rw [process_pixel_border_fst, process_pixel_border_fst, pixel_cands,
      pixel_cands, border_dirs_eq_nil 0 h 0 y (Or.inl rfl),
      border_dirs_eq_nil 0 h ((0 * y + 0) % 0) ((0 * y + 0) / 0) (Or.inl rfl)]
    simp [foldAbs, Nat.mod_zero, Nat.div_zero]
  · have hx : x < w := by
      rcases (mem_border_pixels w h x y).1 hxy with ⟨hx, _⟩ | ⟨_, _, hx | hx⟩ <;>
        omega
    exact (pixel_value_coords w h a g x y hx).symm

/-- Every write queued by the border worker carries the canonical
per-pixel value of its index. -/
lemma border_writes_value (w h : ℕ) (a g : ℕ → α) :
    ∀ q ∈ border_writes w h a g, q.2 = pixel_value w h a g q.1 := by
  intro q hq
  rw [border_writes, List.mem_map] at hq
  obtain ⟨⟨x, y⟩, hxy, rfl⟩ := hq
  exact border_fst_eq w h a g x y hxy

/-- The `converged` contribution of an interior pixel records whether the
canonical step changed the cell. -/
lemma interior_flag_iff (w h : ℕ) (a g : ℕ → α) (x y : ℕ)
    (hx1 : 1 ≤ x) (hx2 : x + 2 ≤ w) (hy1 : 1 ≤ y) (hy2 : y + 2 ≤ h) :
    ((process_pixel_internal w a g (y * w + x)).2 = true ↔
      pixel_value w h a g (y * w + x) = a (y * w + x)) := by
  have hc : y * w + x = w * y + x := by ring
  rw [hc, process_pixel_internal_eq_border w h a g x y hx1 hx2 hy1 hy2,
    process_pixel_border_snd, pixel_value_coords w h a g x y (by omega)]

/-- The `converged` contribution of a border pixel records whether the
canonical step changed the cell. -/
lemma border_flag_iff (w h : ℕ) (a g : ℕ → α) (x y : ℕ)
    (hxy : (x, y) ∈ border_pixels w h) :
    ((process_pixel_border w h a g x y).2 = true ↔
      pixel_value w h a g (w * y + x) = a (w * y + x)) := by
  rw [process_pixel_border_snd, border_fst_eq w h a g x y hxy]

/-- Both builds process the same set of cells. -/
lemma mem_processed_iff (w h p : ℕ) :
    p ∈ processed_indices w h ↔ p ∈ seq_processed_indices w h := by
  simp only [processed_indices, seq_processed_indices, List.mem_append]
  constructor
  · rintro ((((h0 | h1) | h2) | h3) | hb)
    · exact Or.inl ((mem_seq_interior_indices w h p).2
        (by obtain ⟨x, y, p1, p2, p3, p4, _, p6⟩ :=
              (mem_thread_indices w h 0 p (by omega)).1 h0
            exact ⟨x, y, p1, p2, p3, p4, p6⟩))
    · exact Or.inl ((mem_seq_interior_indices w h p).2
        (by obtain ⟨x, y, p1, p2, p3, p4, _, p6⟩ :=
              (mem_thread_indices w h 1 p (by omega)).1 h1
            exact ⟨x, y, p1, p2, p3, p4, p6⟩))
    · exact Or.inl ((mem_seq_interior_indices w h p).2
        (by obtain ⟨x, y, p1, p2, p3, p4, _, p6⟩ :=
              (mem_thread_indices w h 2 p (by omega)).1 h2
            exact ⟨x, y, p1, p2, p3, p4, p6⟩))
    · exact Or.inl ((mem_seq_interior_indices w h p).2
        (by obtain ⟨x, y, p1, p2, p3, p4, _, p6⟩ :=
              (mem_thread_indices w h 3 p (by omega)).1 h3
            exact ⟨x, y, p1, p2, p3, p4, p6⟩))
    · exact Or.inr hb
  · rintro (hi | hb)
    · obtain ⟨x, y, p1, p2, p3, p4, p6⟩ := (mem_seq_interior_indices w h p).1 hi
      have ht : y % 4 = 0 ∨ y % 4 = 1 ∨ y % 4 = 2 ∨ y % 4 = 3 := by omega
      rcases ht with ht | ht | ht | ht
      · exact Or.inl (Or.inr ((mem_thread_indices w h 3 p
          (by omega)).2 ⟨x, y, p1, p2, p3, p4, by omega, p6⟩))
      · exact Or.inl (Or.inl (Or.inl (Or.inl ((mem_thread_indices w h 0 p
          (by omega)).2 ⟨x, y, p1, p2, p3, p4, by omega, p6⟩))))
      · exact Or.inl (Or.inl (Or.inl (Or.inr ((mem_thread_indices w h 1 p
          (by omega)).2 ⟨x, y, p1, p2, p3, p4, by omega, p6⟩))))
      · exact Or.inl (Or.inl (Or.inr ((mem_thread_indices w h 2 p
          (by omega)).2 ⟨x, y, p1, p2, p3, p4, by omega, p6⟩)))
    · exact Or.inr hb

/-- On a non-degenerate grid the step processes exactly the cells
`0 ≤ p < w * h`, each exactly through its own coordinates. -/
lemma mem_seq_processed_iff_lt (w h p : ℕ) (hw : 1 ≤ w) (hh : 1 ≤ h) :
    p ∈ seq_processed_indices w h ↔ p < w * h := by
  simp only [seq_processed_indices, List.mem_append]
  constructor
  · rintro (hi | hb)
    · obtain ⟨x, y, p1, p2, p3, p4, rfl⟩ := (mem_seq_interior_indices w h p).1 hi
      exact index_lt_size w h x y (by omega) (by omega)
    · rw [List.mem_map] at hb
      obtain ⟨⟨x, y⟩, hxy, rfl⟩ := hb
      show w * y + x < w * h
      have hbm := (mem_border_pixels w h x y).1 hxy
      have hx : x < w := by rcases hbm with ⟨hx, _⟩ | ⟨_, _, hx | hx⟩ <;> omega
      have hy : y < h := by rcases hbm with ⟨_, hy | hy⟩ | ⟨hy, hy2, _⟩ <;> omega
      have := index_lt_size w h x y hx hy
      have hc : w * y = y * w := Nat.mul_comm w y
      omega
  · intro hp
    have hx : p % w < w := Nat.mod_lt p (by omega)
    have hy : p / w < h := by
      rw [Nat.div_lt_iff_lt_mul (by omega : 0 < w)]
      have hc : h * w = w * h := Nat.mul_comm h w
      omega
    have hd : w * (p / w) + p % w = p := Nat.div_add_mod p w
    by_cases hint : 1 ≤ p % w ∧ p % w + 2 ≤ w ∧ 1 ≤ p / w ∧ p / w + 2 ≤ h
    · refine Or.inl ((mem_seq_interior_indices w h p).2
        ⟨p % w, p / w, hint.1, hint.2.1, hint.2.2.1, hint.2.2.2, ?_⟩)
      have hc : w * (p / w) = (p / w) * w := Nat.mul_comm _ _
      omega
    · refine Or.inr (List.mem_map.2 ⟨(p % w, p / w), ?_, hd⟩)
      refine (mem_border_pixels w h (p % w) (p / w)).2 ?_
      have key : ∀ u v : ℕ, v < w → u < h →
          ¬(1 ≤ v ∧ v + 2 ≤ w ∧ 1 ≤ u ∧ u + 2 ≤ h) →
          ((v < w ∧ (u = 0 ∨ u = h - 1)) ∨
            (1 ≤ u ∧ u + 2 ≤ h ∧ (v = 0 ∨ v = w - 1))) := by
        intro u v h1 h2 h3
        omega
      exact key (p / w) (p % w) hx hy hint

/-- One threaded step writes exactly the canonical synchronous value at
every processed cell, leaving every other position of the `out` buffer as
it was. -/
lemma process_iteration_fst (w h : ℕ) (a b g : ℕ → α) :
    (process_iteration w h a b g).1 = fun p =>
      if p ∈ processed_indices w h then pixel_value w h a g p else b p := by
  show apply_writes b _ = _
  rw [apply_writes_value _ (pixel_value w h a g) b ?_]
  · have hm : ((thread_writes w h a g 0 ++ thread_writes w h a g 1 ++
        thread_writes w h a g 2 ++ thread_writes w h a g 3 ++
        border_writes w h a g).map Prod.fst) = processed_indices w h := by
      simp only [List.map_append, thread_writes_map_fst, border_writes_map_fst,
        processed_indices]
    rw [hm]
  · intro q hq
    simp only [List.mem_append] at hq
    rcases hq with ((((h0 | h1) | h2) | h3) | hb)
    · exact thread_writes_value w h a g 0 (by omega) q h0
    · exact thread_writes_value w h a g 1 (by omega) q h1
    · exact thread_writes_value w h a g 2 (by omega) q h2
    · exact thread_writes_value w h a g 3 (by omega) q h3
    · exact border_writes_value w h a g q hb

/-- One sequential step writes exactly the canonical synchronous value at
every processed cell, leaving every other position of the `out` buffer as
it was. -/
lemma process_iteration_nothreads_fst (w h : ℕ) (a b g : ℕ → α) :
    (process_iteration_nothreads w h a b g).1 = fun p =>
      if p ∈ seq_processed_indices w h then pixel_value w h a g p else b p := by
  show apply_writes b _ = _
  rw [apply_writes_value _ (pixel_value w h a g) b ?_]
  · have hm : (((seq_interior_indices w h).map
        (fun i => (i, (process_pixel_internal w a g i).1)) ++
        border_writes w h a g).map Prod.fst) = seq_processed_indices w h := by
      simp only [List.map_append, border_writes_map_fst, List.map_map,
        seq_processed_indices]
      congr 1
      exact List.map_id _
    rw [hm]
  · intro q hq
    simp only [List.mem_append] at hq
    rcases hq with hi | hb
    · exact seq_writes_value w h a g q hi
    · exact border_writes_value w h a g q hb

/-- Worker `t`'s `converged` is `true` iff none of its pixels changed. -/
lemma thread_converged_iff (w h : ℕ) (a g : ℕ → α) (t : ℕ) (ht : t < 4) :
    (thread_converged w h a g t = true ↔
      ∀ p ∈ thread_indices w h t, pixel_value w h a g p = a p) := by
  rw [thread_converged, List.all_eq_true]
  have hiff : ∀ i ∈ thread_indices w h t,
      ((process_pixel_internal w a g i).2 = true ↔
        pixel_value w h a g i = a i) := by
    intro i hi
    obtain ⟨x, y, p1, p2, p3, p4, _, rfl⟩ := (mem_thread_indices w h t i ht).1 hi
    exact interior_flag_iff w h a g x y p1 p2 p3 p4
  exact ⟨fun hall i hi => (hiff i hi).1 (hall i hi),
    fun hall i hi => (hiff i hi).2 (hall i hi)⟩

/-- The border worker's `converged` is `true` iff no border pixel changed. -/
lemma border_converged_iff (w h : ℕ) (a g : ℕ → α) :
    (border_converged w h a g = true ↔
      ∀ q ∈ border_pixels w h,
        pixel_value w h a g (w * q.2 + q.1) = a (w * q.2 + q.1)) := by
  rw [border_converged, List.all_eq_true]
  have hiff : ∀ q ∈ border_pixels w h,
      ((process_pixel_border w h a g q.1 q.2).2 = true ↔
        pixel_value w h a g (w * q.2 + q.1) = a (w * q.2 + q.1)) := by
    rintro ⟨x, y⟩ hxy
    exact border_flag_iff w h a g x y hxy
  exact ⟨fun hall q hq => (hiff q hq).1 (hall q hq),
    fun hall q hq => (hiff q hq).2 (hall q hq)⟩

/-- The combined `converged` result of the threaded step is `true` iff no
processed cell changed. -/
lemma process_iteration_snd (w h : ℕ) (a b g : ℕ → α) :
    ((process_iteration w h a b g).2 = true ↔
      ∀ p ∈ processed_indices w h, pixel_value w h a g p = a p) := by
  show (thread_converged w h a g 0 && thread_converged w h a g 1 &&
    thread_converged w h a g 2 && thread_converged w h a g 3 &&
    border_converged w h a g) = true ↔ _
  simp only [Bool.and_eq_true]
  rw [thread_converged_iff w h a g 0 (by omega),
    thread_converged_iff w h a g 1 (by omega),
    thread_converged_iff w h a g 2 (by omega),
    thread_converged_iff w h a g 3 (by omega), border_converged_iff]
  constructor
  · rintro ⟨⟨⟨⟨h0, h1⟩, h2⟩, h3⟩, hb⟩ p hp
    simp only [processed_indices, List.mem_append] at hp
    rcases hp with ((((hp | hp) | hp) | hp) | hp)
    · exact h0 p hp
    · exact h1 p hp
    · exact h2 p hp
    · exact h3 p hp
    · rw [List.mem_map] at hp
      obtain ⟨⟨x, y⟩, hxy, rfl⟩ := hp
      exact hb (x, y) hxy
  · intro hall
    have hmem : ∀ p l, l = thread_indices w h 0 ∨ l = thread_indices w h 1 ∨
        l = thread_indices w h 2 ∨ l = thread_indices w h 3 → p ∈ l →
        p ∈ processed_indices w h := by
      intro p l hl hp
      simp only [processed_indices, List.mem_append]
      rcases hl with rfl | rfl | rfl | rfl
      · exact Or.inl (Or.inl (Or.inl (Or.inl hp)))
      · exact Or.inl (Or.inl (Or.inl (Or.inr hp)))
      · exact Or.inl (Or.inl (Or.inr hp))
      · exact Or.inl (Or.inr hp)
    refine ⟨⟨⟨⟨fun p hp => hall p (hmem p _ (by tauto) hp),
      fun p hp => hall p (hmem p _ (by tauto) hp)⟩,
      fun p hp => hall p (hmem p _ (by tauto) hp)⟩,
      fun p hp => hall p (hmem p _ (by tauto) hp)⟩,
      fun q hq => hall _ ?_⟩
    simp only [processed_indices, List.mem_append]
    exact Or.inr (List.mem_map.2 ⟨q, hq, rfl⟩)

/-- The combined `converged` result of the sequential step is `true` iff no
processed cell changed. -/
lemma process_iteration_nothreads_snd (w h : ℕ) (a b g : ℕ → α) :
    ((process_iteration_nothreads w h a b g).2 = true ↔
      ∀ p ∈ seq_processed_indices w h, pixel_value w h a g p = a p) := by
  show ((seq_interior_indices w h).all
      (fun i => (process_pixel_internal w a g i).2) &&
    border_converged w h a g) = true ↔ _
  simp only [Bool.and_eq_true]
  rw [List.all_eq_true, border_converged_iff]
  have hiff : ∀ i ∈ seq_interior_indices w h,
      ((process_pixel_internal w a g i).2 = true ↔
        pixel_value w h a g i = a i) := by
    intro i hi
    obtain ⟨x, y, p1, p2, p3, p4, rfl⟩ := (mem_seq_interior_indices w h i).1 hi
    exact interior_flag_iff w h a g x y p1 p2 p3 p4
  constructor
  · rintro ⟨hi, hb⟩ p hp
    simp only [seq_processed_indices, List.mem_append] at hp
    rcases hp with hp | hp
    · exact (hiff p hp).1 (hi p hp)
    · rw [List.mem_map] at hp
      obtain ⟨⟨x, y⟩, hxy, rfl⟩ := hp
      exact hb (x, y) hxy
  · intro hall
    refine ⟨fun i hi => (hiff i hi).2 (hall i ?_), fun q hq => hall _ ?_⟩
    · simp only [seq_processed_indices, List.mem_append]
      exact Or.inl hi
    · simp only [seq_processed_indices, List.mem_append]
      exact Or.inr (List.mem_map.2 ⟨q, hq, rfl⟩)

/-! ## Neighbor index arithmetic and value bounds -/

/-- The `int` index arithmetic of the source agrees with the coordinate
form of the neighbor. -/
lemma neighbor_index_coord (w x y i : ℕ) :
    ((w * y + x : ℕ) : ℤ) + neighbor_index_ofs w i =
      ((y : ℤ) + ny8 i) * (w : ℤ) + ((x : ℤ) + nx8 i) := by
  unfold neighbor_index_ofs
  push_cast
  ring

/-- For an in-bounds direction the neighbor index is a valid cell. -/
lemma neighbor_index_valid (w h x y i : ℕ) (hb : inBoundsDir w h x y i) :
    0 ≤ ((w * y + x : ℕ) : ℤ) + neighbor_index_ofs w i ∧
    (((w * y + x : ℕ) : ℤ) + neighbor_index_ofs w i).toNat < w * h := by
  obtain ⟨h1, h2, h3, h4⟩ := hb
  rw [neighbor_index_coord]
  have hnn : (0 : ℤ) ≤ ((y : ℤ) + ny8 i) * (w : ℤ) + ((x : ℤ) + nx8 i) :=
    add_nonneg (mul_nonneg h3 (by positivity)) h1
  refine ⟨hnn, ?_⟩
  have hyw : ((y : ℤ) + ny8 i) * (w : ℤ) ≤ ((h : ℤ) - 1) * (w : ℤ) :=
    mul_le_mul_of_nonneg_right (by omega) (by positivity)
  have hexp : ((h : ℤ) - 1) * (w : ℤ) = (h : ℤ) * w - w := by ring
  have hlt : ((y : ℤ) + ny8 i) * (w : ℤ) + ((x : ℤ) + nx8 i) <
      ((w * h : ℕ) : ℤ) := by
    push_cast
    have hc : (h : ℤ) * w = (w : ℤ) * h := by ring
    omega
  rw [Int.toNat_lt hnn] at *
  omega

/-- The magnitude of the canonical step value is bounded by any common
bound (of at most one) on the strengths when all in-bounds weights have
magnitude at most one. -/
lemma abs_pixel_value_le_one (w h : ℕ) (a g : ℕ → α) (p : ℕ) (hp : p < w * h)
    (hg : ∀ q i, q < w * h → i < 8 → inBoundsDir w h (q % w) (q / w) i →
      |g (q * 8 + i)| ≤ 1)
    (ha : ∀ q, q < w * h → |a q| ≤ 1) :
    |pixel_value w h a g p| ≤ 1 := by
  have hpd : w * (p / w) + p % w = p := Nat.div_add_mod p w
  rw [pixel_value, process_pixel_border_fst, hpd]
  have hbound : ∀ c ∈ a p :: pixel_cands w h a g (p % w) (p / w), |c| ≤ 1 := by
    intro c hc
    rcases List.mem_cons.1 hc with rfl | hc
    · exact ha p hp
    · rw [pixel_cands, List.mem_map] at hc
      obtain ⟨i, hi, rfl⟩ := hc
      rw [border_dirs, List.mem_filter] at hi
      obtain ⟨hir, hib⟩ := hi
      rw [List.mem_range] at hir
      rw [decide_eq_true_eq] at hib
      rw [cand, hpd, abs_mul]
      have hnb := neighbor_index_valid w h (p % w) (p / w) i hib
      rw [hpd] at hnb
      calc |g (p * 8 + i)| * |a (((p : ℤ) + neighbor_index_ofs w i).toNat)| ≤
          1 * 1 := by
            refine mul_le_mul (hg p i hp hir hib)
              (ha _ hnb.2) (abs_nonneg _) (by norm_num)
        _ = 1 := by norm_num
  rcases List.mem_cons.1 (foldAbs_mem (pixel_cands w h a g (p % w) (p / w)) (a p))
    with he | he
  · rw [he]; exact hbound _ (List.mem_cons_self _ _)
  · exact hbound _ (List.mem_cons_of_mem _ he)

/-- A cell at maximal confidence is uncontestable: the canonical step
keeps it unchanged. -/
lemma pixel_value_seed (w h : ℕ) (a g : ℕ → α) (p : ℕ) (hp : p < w * h)
    (hg : ∀ q i, q < w * h → i < 8 → inBoundsDir w h (q % w) (q / w) i →
      |g (q * 8 + i)| ≤ 1)
    (ha : ∀ q, q < w * h → |a q| ≤ 1) (hseed : |a p| = 1) :
    pixel_value w h a g p = a p := by
  have hpd : w * (p / w) + p % w = p := Nat.div_add_mod p w
  rw [pixel_value, process_pixel_border_fst, hpd]
  refine foldAbs_eq_self _ _ fun c hc => ?_
  rw [hseed]
  rw [pixel_cands, List.mem_map] at hc
  obtain ⟨i, hi, rfl⟩ := hc
  rw [border_dirs, List.mem_filter] at hi
  obtain ⟨hir, hib⟩ := hi
  rw [List.mem_range] at hir
  rw [decide_eq_true_eq] at hib
  rw [cand, hpd, abs_mul]
  have hnb := neighbor_index_valid w h (p % w) (p / w) i hib
  rw [hpd] at hnb
  calc |g (p * 8 + i)| * |a (((p : ℤ) + neighbor_index_ofs w i).toNat)| ≤
      1 * 1 := by
        refine mul_le_mul (hg p i hp hir hib) (ha _ hnb.2) (abs_nonneg _)
          (by norm_num)
    _ = 1 := by norm_num

/-! ## Assorted bridges -/

lemma bool_eq_of_iff {x y : Bool} (h : (x = true) ↔ (y = true)) : x = y := by
  cases x <;> cases y <;> simp_all

lemma map_congr_mem {β γ : Type} (l : List β) (f f' : β → γ)
    (h : ∀ e ∈ l, f e = f' e) : l.map f = l.map f' := by
  induction l with
  | nil => rfl
  | cons e l ih =>
    rw [List.map_cons, List.map_cons, h e (List.mem_cons_self _ _),
      ih fun e he => h e (List.mem_cons_of_mem _ he)]

/-- The source's index arithmetic candidates coincide with the
specification's coordinate-form candidates. -/
lemma pixel_cands_eq_claim (w h : ℕ) (a g : ℕ → α) (x y : ℕ) :
    pixel_cands w h a g x y = claim_cands w h a g x y := by
  rw [pixel_cands, claim_cands]
  refine map_congr_mem _ _ _ fun i _ => ?_
  rw [cand, neighbor_index_coord]

lemma process_file_loop_zero (step : (ℕ → α) → (ℕ → α) → (ℕ → α) × Bool)
    (a b : ℕ → α) : process_file_loop step 0 a b = ((step a b).1, 1) := by
  rw [process_file_loop]
  split <;> rfl

lemma process_file_loop_succ (step : (ℕ → α) → (ℕ → α) → (ℕ → α) × Bool)
    (f : ℕ) (a b : ℕ → α) :
    process_file_loop step (f + 1) a b =
      if (step a b).2 then ((step a b).1, 1)
      else ((process_file_loop step f (step a b).1 a).1,
        (process_file_loop step f (step a b).1 a).2 + 1) := rfl

/-- The loop of `process_file` performs at most `fuel + 1` calls of the
step function. -/
lemma process_file_loop_count (step : (ℕ → α) → (ℕ → α) → (ℕ → α) × Bool) :
    ∀ (fuel : ℕ) (a b : ℕ → α), (process_file_loop step fuel a b).2 ≤ fuel + 1 := by
  intro fuel
  induction fuel with
  | zero =>
    intro a b
    rw [process_file_loop_zero]
  | succ f ih =>
    intro a b
    rw [process_file_loop_succ]
    split
    · simp
    · have := ih (step a b).1 a
      dsimp only
      omega

/-- The loop of `process_file` stops immediately after a converged step. -/
lemma process_file_loop_of_converged (step : (ℕ → α) → (ℕ → α) → (ℕ → α) × Bool)
    (fuel : ℕ) (a b : ℕ → α) (hc : (step a b).2 = true) :
    process_file_loop step fuel a b = ((step a b).1, 1) := by
  cases fuel with
  | zero => rw [process_file_loop_zero]
  | succ f => rw [process_file_loop_succ, if_pos hc]

lemma foldl_add_map (l : List ℕ) (f : ℕ → α) (s0 : α) :
    l.foldl (fun s i => s + f i) s0 = s0 + (l.map f).sum := by
  induction l generalizing s0 with
  | nil => simp
  | cons i l ih =>
    rw [List.foldl_cons, ih, List.map_cons, List.sum_cons]
    ring

/-- Decoding the flat 3-channel index written by the init and smoothing
loops. -/
lemma decode3 (w h x y c : ℕ) (hx : x < w) (hy : y < h) (hc : c < 3) :
    ((x + y * w) * 3 + c) / 3 % w = x ∧ ((x + y * w) * 3 + c) / 3 / w = y ∧
    ((x + y * w) * 3 + c) % 3 = c ∧ (x + y * w) * 3 + c < w * h * 3 := by
  have hidx : x + y * w < w * h := by
    have := index_lt_size w h x y hx hy
    omega
  have h1 : ((x + y * w) * 3 + c) / 3 = x + y * w := by omega
  have h2 : (x + y * w) % w = x := by
    rw [Nat.add_mul_mod_self_right, Nat.mod_eq_of_lt hx]
  have h3 : (x + y * w) / w = y := by
    rw [Nat.add_mul_div_right _ _ (by omega : 0 < w), Nat.div_eq_of_lt hx,
      Nat.zero_add]
  exact ⟨by rw [h1, h2], by rw [h1, h3], by omega, by omega⟩

/-- The normalized affinity value lies in `[0, 1]` whenever the squared
color distance is at most 3. -/
lemma affinity_range (D : ℝ) (h0 : 0 ≤ D) (h3 : D ≤ 3) :
    0 ≤ 1 - Real.sqrt D / maxC ∧ 1 - Real.sqrt D / maxC ≤ 1 := by
  have hmaxC : (0 : ℝ) < maxC := by
    rw [maxC]; exact Real.sqrt_pos.2 (by norm_num)
  have hsq : Real.sqrt D ≤ maxC := by
    rw [maxC]; exact Real.sqrt_le_sqrt h3
  constructor
  · have hd : Real.sqrt D / maxC ≤ 1 := by
      rw [div_le_one hmaxC]; exact hsq
    linarith
  · have hd : 0 ≤ Real.sqrt D / maxC :=
      div_nonneg (Real.sqrt_nonneg _) (le_of_lt hmaxC)
    linarith

/-- Affinities computed from colors in `[0, 1]` lie in `[0, 1]`. -/
lemma calc_g_entry_mem (w h : ℕ) (colors : ℕ → ℝ) (x y i : ℕ)
    (hx : x < w) (hy : y < h) (hb : inBoundsDir w h x y i)
    (hc : ∀ k, k < w * h * 3 → 0 ≤ colors k ∧ colors k ≤ 1) :
    0 ≤ calc_g_entry w colors x y i ∧ calc_g_entry w colors x y i ≤ 1 := by
  have hidx : x + y * w < w * h := by
    have := index_lt_size w h x y hx hy
    omega
  have hnbr : ((((x : ℤ) + nx8 i) + ((y : ℤ) + ny8 i) * (w : ℤ))).toNat <
      w * h := by
    have hcoord : ((x : ℤ) + nx8 i) + ((y : ℤ) + ny8 i) * (w : ℤ) =
        ((w * y + x : ℕ) : ℤ) + neighbor_index_ofs w i := by
      rw [neighbor_index_coord]; ring
    rw [hcoord]
    exact (neighbor_index_valid w h x y i hb).2
  have hch : ∀ c : ℕ, c < 3 →
      |colors ((x + y * w) * 3 + c) -
        colors (((((x : ℤ) + nx8 i) + ((y : ℤ) + ny8 i) * (w : ℤ))).toNat * 3
          + c)| ≤ 1 := by
    intro c hcb
    have hb1 := hc ((x + y * w) * 3 + c) (by omega)
    have hb2 := hc (((((x : ℤ) + nx8 i) + ((y : ℤ) + ny8 i) * (w : ℤ))).toNat * 3
      + c) (by omega)
    rw [abs_le]
    constructor <;> linarith [hb1.1, hb1.2, hb2.1, hb2.2]
  have hsqb : ∀ u : ℝ, |u| ≤ 1 → u * u ≤ 1 := by
    intro u hu
    have h1 := abs_le.1 hu
    nlinarith [mul_nonneg (by linarith : (0 : ℝ) ≤ 1 - u)
      (by linarith : (0 : ℝ) ≤ 1 + u)]
  simp only [calc_g_entry]
  refine affinity_range _ ?_ ?_
  · have m0 := mul_self_nonneg (colors ((x + y * w) * 3) -
      colors (((((x : ℤ) + nx8 i) + ((y : ℤ) + ny8 i) * (w : ℤ))).toNat * 3))
    have m1 := mul_self_nonneg (colors ((x + y * w) * 3 + 1) -
      colors (((((x : ℤ) + nx8 i) + ((y : ℤ) + ny8 i) * (w : ℤ))).toNat * 3 + 1))
    have m2 := mul_self_nonneg (colors ((x + y * w) * 3 + 2) -
      colors (((((x : ℤ) + nx8 i) + ((y : ℤ) + ny8 i) * (w : ℤ))).toNat * 3 + 2))
    have he : (x + y * w) * 3 = (x + y * w) * 3 + 0 := by omega
    linarith
  · have e0 := hsqb _ (by simpa using hch 0 (by omega))
    have e1 := hsqb _ (hch 1 (by omega))
    have e2 := hsqb _ (hch 2 (by omega))
    simp only [Nat.add_zero] at e0
    linarith

/-- The in-bounds `g_array` entries produced by the `calc_g` loop have
magnitude at most one when the colors lie in `[0, 1]`. -/
lemma g_array_full_bounds (junkG : ℕ → ℝ) (w h : ℕ) (colors : ℕ → ℝ)
    (hc : ∀ k, k < w * h * 3 → 0 ≤ colors k ∧ colors k ≤ 1) :
    ∀ q i, q < w * h → i < 8 → inBoundsDir w h (q % w) (q / w) i →
      |g_array_full junkG w h colors (q * 8 + i)| ≤ 1 := by
  intro q i hq hi hb
  have hd : (q * 8 + i) / 8 = q := by omega
  have hm : (q * 8 + i) % 8 = i := by omega
  simp only [g_array_full, hd, hm]
  rw [if_pos ⟨hq, hb⟩]
  have hw0 : 0 < w := by
    rcases Nat.eq_zero_or_pos w with rfl | hw0
    · omega
    · exact hw0
  have hx : q % w < w := Nat.mod_lt _ hw0
  have hy : q / w < h := by
    rw [Nat.div_lt_iff_lt_mul hw0]
    have := Nat.mul_comm h w
    omega
  have hmem := calc_g_entry_mem w h colors (q % w) (q / w) i hx hy hb hc
  exact abs_le.2 ⟨by linarith [hmem.1], hmem.2⟩

/-- Both strength buffers keep all magnitudes at most one, for any number
of iterations, when every in-bounds weight has magnitude at most one. -/
lemma buffers_after_bounded (w h : ℕ) (g a b : ℕ → α)
    (hg : ∀ q i, q < w * h → i < 8 → inBoundsDir w h (q % w) (q / w) i →
      |g (q * 8 + i)| ≤ 1)
    (ha : ∀ p, p < w * h → |a p| ≤ 1) (hb : ∀ p, p < w * h → |b p| ≤ 1) :
    ∀ n, (∀ p, p < w * h → |(buffers_after w h g a b n).1 p| ≤ 1) ∧
      (∀ p, p < w * h → |(buffers_after w h g a b n).2 p| ≤ 1) := by
  intro n
  induction n with
  | zero => exact ⟨ha, hb⟩
  | succ n ih =>
    refine ⟨?_, ih.1⟩
    intro p hp
    have hw0 : 1 ≤ w := by
      rcases Nat.eq_zero_or_pos w with rfl | hw0
      · omega
      · exact hw0
    have hh0 : 1 ≤ h := by
      rcases Nat.eq_zero_or_pos h with rfl | hh0
      · omega
      · exact hh0
    show |(process_iteration w h (buffers_after w h g a b n).1
      (buffers_after w h g a b n).2 g).1 p| ≤ 1
    rw [process_iteration_fst]
    dsimp only
    rw [if_pos ((mem_processed_iff w h p).2
      ((mem_seq_processed_iff_lt w h p hw0 hh0).2 hp))]
    exact abs_pixel_value_le_one w h _ g p hp hg ih.1

/-- A seed cell (magnitude exactly one) keeps its value, sign included, in
every buffer the automaton ever produces. -/
lemma buffers_after_seed (w h : ℕ) (g a b : ℕ → α) (p0 : ℕ)
    (hp0 : p0 < w * h) (hseed : |a p0| = 1)
    (hg : ∀ q i, q < w * h → i < 8 → inBoundsDir w h (q % w) (q / w) i →
      |g (q * 8 + i)| ≤ 1)
    (ha : ∀ p, p < w * h → |a p| ≤ 1) (hb : ∀ p, p < w * h → |b p| ≤ 1) :
    ∀ n, (buffers_after w h g a b n).1 p0 = a p0 := by
  intro n
  induction n with
  | zero => rfl
  | succ n ih =>
    have hw0 : 1 ≤ w := by
      rcases Nat.eq_zero_or_pos w with rfl | hw0
      · omega
      · exact hw0
    have hh0 : 1 ≤ h := by
      rcases Nat.eq_zero_or_pos h with rfl | hh0
      · omega
      · exact hh0
    have hbnd := (buffers_after_bounded w h g a b hg ha hb n).1
    show (process_iteration w h (buffers_after w h g a b n).1
      (buffers_after w h g a b n).2 g).1 p0 = a p0
    rw [process_iteration_fst]
    dsimp only
    rw [if_pos ((mem_processed_iff w h p0).2
      ((mem_seq_processed_iff_lt w h p0 hw0 hh0).2 hp0))]
    rw [pixel_value_seed w h _ g p0 hp0 hg hbnd (by rw [ih]; exact hseed), ih]

/-- The canonical step value depends only on the in-bounds affinity
entries and the valid strength cells. -/
lemma pixel_value_congr (w h : ℕ) (a a' g g' : ℕ → α) (p : ℕ) (hp : p < w * h)
    (hg : ∀ q i, q < w * h → i < 8 → inBoundsDir w h (q % w) (q / w) i →
      g (q * 8 + i) = g' (q * 8 + i))
    (ha : ∀ q, q < w * h → a q = a' q) :
    pixel_value w h a g p = pixel_value w h a' g' p := by
  have hpd : w * (p / w) + p % w = p := Nat.div_add_mod p w
  rw [pixel_value, pixel_value, process_pixel_border_fst,
    process_pixel_border_fst, hpd]
  have hlist : pixel_cands w h a g (p % w) (p / w) =
      pixel_cands w h a' g' (p % w) (p / w) := by
    rw [pixel_cands, pixel_cands]
    refine map_congr_mem _ _ _ fun i hi => ?_
    rw [border_dirs, List.mem_filter, List.mem_range] at hi
    obtain ⟨hir, hib⟩ := hi
    rw [decide_eq_true_eq] at hib
    have hnb := neighbor_index_valid w h (p % w) (p / w) i hib
    rw [hpd] at hnb
    rw [cand, cand, hpd, hg p i hp hir hib, ha _ hnb.2]
  rw [hlist, ha p hp]

lemma iteration_writes_map_fst (w h : ℕ) (a g : ℕ → α) :
    ((thread_writes w h a g 0 ++ thread_writes w h a g 1 ++
      thread_writes w h a g 2 ++ thread_writes w h a g 3 ++
      border_writes w h a g).map Prod.fst) = processed_indices w h := by
  simp only [List.map_append, thread_writes_map_fst, border_writes_map_fst,
    processed_indices]

/-! ## Claim theorems -/

/-- C10: the seed classifier's comparisons are strict at their boundaries:
an overlay pixel whose alpha equals the threshold `0x80 = 128` exactly is
left unlabeled (strength 0), since only alpha strictly greater than 128
creates a seed; and an opaque overlay pixel whose red channel equals its
green channel plus 128 exactly is classified foreground (`+1.0`), since
background requires red strictly greater than green + 128. -/
theorem c10_seed_thresholds_strict :
    (∀ r g b : ℕ, overlay_seed (α := ℚ) ⟨r, g, b, 128⟩ = 0) ∧
    (∀ r g b al : ℕ, 128 < al → r = g + 128 →
      overlay_seed (α := ℚ) ⟨r, g, b, al⟩ = 1) := by
  constructor
  · intro r g b
    simp [overlay_seed]
  · intro r g b al hal hr
    rw [overlay_seed]
    rw [if_pos (by simpa using hal), if_neg (by simp [hr])]

theorem c10_seed_thresholds_strict_witness :
    overlay_seed (α := ℚ) ⟨200, 50, 0, 128⟩ = 0 ∧
    (128 < 200 ∧ (178 : ℕ) = 50 + 128 ∧
      overlay_seed (α := ℚ) ⟨178, 50, 0, 200⟩ = 1) :=
  ⟨c10_seed_thresholds_strict.1 200 50 0,
    by norm_num, by norm_num,
    c10_seed_thresholds_strict.2 178 50 0 200 (by norm_num) (by norm_num)⟩

/-- C2: at every pixel, `out[p]` starts at `in[p]`; the in-bounds
directions are scanned in the fixed source order, each candidate
`g(p,d) * in[neighbor(p,d)]` (neighbor taken at its own coordinates)
conquering the cell exactly when its absolute value strictly exceeds the
current one, so the result is either the cell's own previous value (when
no candidate strictly beats it) or the *first* candidate of maximal
absolute value — whose sign and attenuated magnitude are both inherited
verbatim.  All strength reads are from the `in` buffer; at interior
pixels the unchecked variant used by the interior workers computes the
same result. -/
theorem c2_update_rule (w h : ℕ) (a g : ℕ → ℚ) (x y : ℕ)
    (hx : x < w) (hy : y < h) :
    (((process_pixel_border w h a g x y).1 = a (w * y + x) ∧
        ∀ c ∈ claim_cands w h a g x y, |c| ≤ |a (w * y + x)|) ∨
      (∃ l₁ c l₂, claim_cands w h a g x y = l₁ ++ c :: l₂ ∧
        (process_pixel_border w h a g x y).1 = c ∧ |a (w * y + x)| < |c| ∧
        (∀ e ∈ l₁, |e| < |c|) ∧ (∀ e ∈ l₂, |e| ≤ |c|))) ∧
    (1 ≤ x → x + 2 ≤ w → 1 ≤ y → y + 2 ≤ h →
      process_pixel_internal w a g (w * y + x) =
        process_pixel_border w h a g x y) := by
  constructor
  · rw [process_pixel_border_fst w h a g x y, ← pixel_cands_eq_claim]
    exact foldAbs_first_max _ _
  · intro hx1 hx2 hy1 hy2
    exact process_pixel_internal_eq_border w h a g x y hx1 hx2 hy1 hy2

theorem c2_update_rule_witness :
    (0 < 1 ∧ 0 < 1) ∧
    ((((process_pixel_border 1 1 (fun _ => (0 : ℚ)) (fun _ => 0) 0 0).1 =
          (fun _ => (0 : ℚ)) (1 * 0 + 0) ∧
        ∀ c ∈ claim_cands 1 1 (fun _ => (0 : ℚ)) (fun _ => 0) 0 0,
          |c| ≤ |(fun _ => (0 : ℚ)) (1 * 0 + 0)|) ∨
      (∃ l₁ c l₂,
        claim_cands 1 1 (fun _ => (0 : ℚ)) (fun _ => 0) 0 0 = l₁ ++ c :: l₂ ∧
        (process_pixel_border 1 1 (fun _ => (0 : ℚ)) (fun _ => 0) 0 0).1 = c ∧
        |(fun _ => (0 : ℚ)) (1 * 0 + 0)| < |c| ∧
        (∀ e ∈ l₁, |e| < |c|) ∧ (∀ e ∈ l₂, |e| ≤ |c|))) ∧
    (1 ≤ 0 → 0 + 2 ≤ 1 → 1 ≤ 0 → 0 + 2 ≤ 1 →
      process_pixel_internal 1 (fun _ => (0 : ℚ)) (fun _ => 0) (1 * 0 + 0) =
        process_pixel_border 1 1 (fun _ => (0 : ℚ)) (fun _ => 0) 0 0)) :=
  ⟨⟨by decide, by decide⟩,
    c2_update_rule 1 1 (fun _ => 0) (fun _ => 0) 0 0 (by decide) (by decide)⟩

/-- C4: a pixel initialized as a seed (strength exactly `+1.0` or `-1.0`)
keeps both its sign and its magnitude in every buffer the automaton ever
produces: no candidate `|g * in[neighbor]|` can strictly exceed `1.0`
when every in-bounds weight has `|g| ≤ 1` and all magnitudes are at most
`1`. -/
theorem c4_seed_uncontestable (w h : ℕ) (g a b : ℕ → ℚ) (p0 : ℕ)
    (hp0 : p0 < w * h) (hseed : a p0 = 1 ∨ a p0 = -1)
    (hg : ∀ q i, q < w * h → i < 8 → inBoundsDir w h (q % w) (q / w) i →
      |g (q * 8 + i)| ≤ 1)
    (ha : ∀ p, p < w * h → |a p| ≤ 1) (hb : ∀ p, p < w * h → |b p| ≤ 1) :
    ∀ n, (buffers_after w h g a b n).1 p0 = a p0 := by
  have habs : |a p0| = 1 := by
    rcases hseed with hv | hv <;> rw [hv] <;> norm_num
  exact buffers_after_seed w h g a b p0 hp0 habs hg ha hb

theorem c4_seed_uncontestable_witness :
    ((0 : ℕ) < 1 * 1 ∧ (fun _ : ℕ => (1 : ℚ)) 0 = 1) ∧
    ∀ n, (buffers_after 1 1 (fun _ => (0 : ℚ)) (fun _ => 1) (fun _ => 0) n).1 0 =
      (fun _ : ℕ => (1 : ℚ)) 0 :=
  ⟨⟨by decide, rfl⟩,
    c4_seed_uncontestable 1 1 (fun _ => 0) (fun _ => 1) (fun _ => 0) 0
      (by decide) (Or.inl rfl)
      (fun q i _ _ _ => by norm_num)
      (fun p _ => by norm_num) (fun p _ => by norm_num)⟩

/-- C8: the smoothing pass replaces each in-range channel entry by the
unweighted arithmetic mean of the corresponding channel over the pixel
itself and its in-bounds 8-connected neighbors (taken at their own
coordinates), dividing by the actual number of contributing pixels, which
is 9 exactly at interior pixels; every mean reads only the original
pre-pass array (`blur_image_array` accumulates into the zeroed
`temp_array` and copies it back, a single synchronous pass). -/
theorem c8_smoothing_mean (w h : ℕ) (array : ℕ → ℚ) (x y c : ℕ)
    (hx : x < w) (hy : y < h) (hc : c < 3) :
    (blur_image_array w h array ((x + y * w) * 3 + c) =
      ((blur_dirs w h x y).map fun i =>
          array ((((x : ℤ) + blur_nx9 i).toNat +
            ((y : ℤ) + blur_ny9 i).toNat * w) * 3 + c)).sum /
        ((blur_dirs w h x y).length : ℚ)) ∧
    (1 ≤ x → x + 2 ≤ w → 1 ≤ y → y + 2 ≤ h →
      (blur_dirs w h x y).length = 9) := by
  obtain ⟨hd1, hd2, hd3, hd4⟩ := decode3 w h x y c hx hy hc
  constructor
  · simp only [blur_image_array, hd1, hd2, hd3]
    rw [if_pos hd4, foldl_add_map, zero_add]
    congr 1
    congr 1
    refine map_congr_mem _ _ _ fun i hi => ?_
    rw [blur_dirs, List.mem_filter] at hi
    obtain ⟨_, hib⟩ := hi
    rw [decide_eq_true_eq] at hib
    obtain ⟨h1, h2, h3, h4⟩ := hib
    have hsplit : (((x : ℤ) + blur_nx9 i) + ((y : ℤ) + blur_ny9 i) * (w : ℤ)) =
        ((((x : ℤ) + blur_nx9 i).toNat +
          ((y : ℤ) + blur_ny9 i).toNat * w : ℕ) : ℤ) := by
      push_cast
      rw [Int.toNat_of_nonneg h1, Int.toNat_of_nonneg h3]
    rw [hsplit, Int.toNat_natCast]
  · intro hx1 hx2 hy1 hy2
    have hall : blur_dirs w h x y = List.range 9 := by
      rw [blur_dirs]
      refine List.filter_eq_self.mpr fun i hi => ?_
      rw [List.mem_range] at hi
      rw [decide_eq_true_eq]
      have hnx : -1 ≤ blur_nx9 i ∧ blur_nx9 i ≤ 1 := by
        interval_cases i <;> simp [blur_nx9]
      have hny : -1 ≤ blur_ny9 i ∧ blur_ny9 i ≤ 1 := by
        interval_cases i <;> simp [blur_ny9]
      refine ⟨?_, ?_, ?_, ?_⟩ <;> omega
    rw [hall, List.length_range]

theorem c8_smoothing_mean_witness :
    ((0 : ℕ) < 1 ∧ (0 : ℕ) < 3) ∧
    blur_image_array 1 1 (fun _ => (2 : ℚ)) ((0 + 0 * 1) * 3 + 0) =
      ((blur_dirs 1 1 0 0).map fun i =>
          (fun _ : ℕ => (2 : ℚ)) ((((0 : ℤ) + blur_nx9 i).toNat +
            ((0 : ℤ) + blur_ny9 i).toNat * 1) * 3 + 0)).sum /
        ((blur_dirs 1 1 0 0).length : ℚ) :=
  ⟨⟨by decide, by decide⟩,
    (c8_smoothing_mean 1 1 (fun _ => 2) 0 0 0 (by decide) (by decide)
      (by decide)).1⟩

/-- C5: the automaton engine terminates.  With the source's `max_iter =
2000` (first call at `iter = 0`, continuation only while `++iter < 2000`,
i.e. fuel 1999 after the first call), the loop performs at most 2000
`process_iteration` calls; a step's `converged` result is `true` exactly
when the `out` buffer it produced equals the `in` buffer on every cell of
the grid; the loop stops immediately after any converged step, and after
a non-converged step it swaps buffers and continues — so it stops early
exactly when a pass records no change. -/
theorem c5_termination (w h : ℕ) (g : ℕ → ℚ) (hw : 1 ≤ w) (hh : 1 ≤ h) :
    (∀ a b : ℕ → ℚ,
      (process_file_loop (fun u v => process_iteration w h u v g) 1999 a b).2 ≤
        2000) ∧
    (∀ a b : ℕ → ℚ, ((process_iteration w h a b g).2 = true ↔
      ∀ p, p < w * h → (process_iteration w h a b g).1 p = a p)) ∧
    (∀ (fuel : ℕ) (a b : ℕ → ℚ), (process_iteration w h a b g).2 = true →
      process_file_loop (fun u v => process_iteration w h u v g) fuel a b =
        ((process_iteration w h a b g).1, 1)) ∧
    (∀ (fuel : ℕ) (a b : ℕ → ℚ), (process_iteration w h a b g).2 = false →
      process_file_loop (fun u v => process_iteration w h u v g) (fuel + 1) a b =
        ((process_file_loop (fun u v => process_iteration w h u v g) fuel
            (process_iteration w h a b g).1 a).1,
         (process_file_loop (fun u v => process_iteration w h u v g) fuel
            (process_iteration w h a b g).1 a).2 + 1)) := by
  refine ⟨?_, ?_, ?_, ?_⟩
  · intro a b
    have := process_file_loop_count (fun u v => process_iteration w h u v g)
      1999 a b
    omega
  · intro a b
    rw [process_iteration_snd]
    constructor
    · intro hall p hp
      have hmem := (mem_processed_iff w h p).2
        ((mem_seq_processed_iff_lt w h p hw hh).2 hp)
      rw [process_iteration_fst]
      dsimp only
      rw [if_pos hmem]
      exact hall p hmem
    · intro hall p hp
      have hplt := (mem_seq_processed_iff_lt w h p hw hh).1
        ((mem_processed_iff w h p).1 hp)
      have hval := hall p hplt
      rw [process_iteration_fst] at hval
      dsimp only at hval
      rw [if_pos hp] at hval
      exact hval
  · intro fuel a b hcv
    exact process_file_loop_of_converged _ fuel a b hcv
  · intro fuel a b hcv
    rw [process_file_loop_succ, if_neg (by rw [hcv]; exact Bool.false_ne_true)]

theorem c5_termination_witness :
    ((1 : ℕ) ≤ 1 ∧ (1 : ℕ) ≤ 1) ∧
    ∀ a b : ℕ → ℚ,
      (process_file_loop (fun u v => process_iteration 1 1 u v (fun _ => 0))
        1999 a b).2 ≤ 2000 :=
  ⟨⟨by decide, by decide⟩,
    (c5_termination 1 1 (fun _ => 0) (by decide) (by decide)).1⟩

/-- C6: one threaded step — four interior workers partitioning the
interior rows with stride 4 plus one border worker — produces exactly the
same `out` buffer and the same `converged` flag as the sequential build's
single pass; the writes may moreover be interleaved in any order without
changing the result, and on a non-degenerate grid the written field is
the canonical synchronous update of every cell, so the outcome is
independent of worker count and of interior/border processing order. -/
theorem c6_thread_equivalence (w h : ℕ) (a b g : ℕ → ℚ) :
    process_iteration w h a b g = process_iteration_nothreads w h a b g ∧
    (∀ ws : List (ℕ × ℚ),
      ws.Perm (thread_writes w h a g 0 ++ thread_writes w h a g 1 ++
        thread_writes w h a g 2 ++ thread_writes w h a g 3 ++
        border_writes w h a g) →
      apply_writes b ws = (process_iteration w h a b g).1) ∧
    (1 ≤ w → 1 ≤ h → (process_iteration w h a b g).1 =
      fun p => if p < w * h then pixel_value w h a g p else b p) := by
  refine ⟨?_, ?_, ?_⟩
  · have h1 : (process_iteration w h a b g).1 =
        (process_iteration_nothreads w h a b g).1 := by
      rw [process_iteration_fst, process_iteration_nothreads_fst]
      funext p
      by_cases hp : p ∈ processed_indices w h
      · rw [if_pos hp, if_pos ((mem_processed_iff w h p).1 hp)]
      · rw [if_neg hp, if_neg fun hc => hp ((mem_processed_iff w h p).2 hc)]
    have h2 : (process_iteration w h a b g).2 =
        (process_iteration_nothreads w h a b g).2 := by
      apply bool_eq_of_iff
      rw [process_iteration_snd, process_iteration_nothreads_snd]
      constructor
      · intro hall p hp
        exact hall p ((mem_processed_iff w h p).2 hp)
      · intro hall p hp
        exact hall p ((mem_processed_iff w h p).1 hp)
    exact Prod.ext h1 h2
  · intro ws hperm
    have hvals : ∀ q ∈ ws, q.2 = pixel_value w h a g q.1 := by
      intro q hq
      have hq' := hperm.mem_iff.1 hq
      simp only [List.mem_append] at hq'
      rcases hq' with ((((h0 | h1) | h2) | h3) | hbq)
      · exact thread_writes_value w h a g 0 (by omega) q h0
      · exact thread_writes_value w h a g 1 (by omega) q h1
      · exact thread_writes_value w h a g 2 (by omega) q h2
      · exact thread_writes_value w h a g 3 (by omega) q h3
      · exact border_writes_value w h a g q hbq
    rw [apply_writes_value ws (pixel_value w h a g) b hvals,
      process_iteration_fst]
    funext p
    have hmm : p ∈ ws.map Prod.fst ↔ p ∈ processed_indices w h := by
      rw [← iteration_writes_map_fst w h a g]
      exact (hperm.map Prod.fst).mem_iff
    by_cases hp : p ∈ processed_indices w h
    · rw [if_pos (hmm.2 hp), if_pos hp]
    · rw [if_neg fun hc => hp (hmm.1 hc), if_neg hp]
  · intro hw hh
    rw [process_iteration_fst]
    funext p
    by_cases hp : p < w * h
    · rw [if_pos ((mem_processed_iff w h p).2
        ((mem_seq_processed_iff_lt w h p hw hh).2 hp)), if_pos hp]
    · rw [if_neg fun hc => hp ((mem_seq_processed_iff_lt w h p hw hh).1
        ((mem_processed_iff w h p).1 hc)), if_neg hp]

theorem c6_thread_equivalence_witness :
    process_iteration 1 2 (fun _ => (1 : ℚ)) (fun _ => 0) (fun _ => 0) =
      process_iteration_nothreads 1 2 (fun _ => (1 : ℚ)) (fun _ => 0)
        (fun _ => 0) :=
  (c6_thread_equivalence 1 2 (fun _ => 1) (fun _ => 0) (fun _ => 0)).1

/-- C9: an iteration step touches strength and affinity storage only at
in-bounds pixel/direction pairs.  Changing the affinity entries of
out-of-bounds directions (which `calc_g` never writes) and the strength
entries outside `[0, w*h)` changes neither the produced buffer on the
grid nor the `converged` flag, and every cell outside `[0, w*h)` of the
`out` buffer is left untouched — in particular the degenerate `1×1` and
`1×N` grids are processed without any out-of-bounds access. -/
theorem c9_in_bounds_access_only (w h : ℕ) (g g' a a' b : ℕ → ℚ)
    (hw : 1 ≤ w) (hh : 1 ≤ h)
    (hg : ∀ q i, q < w * h → i < 8 → inBoundsDir w h (q % w) (q / w) i →
      g (q * 8 + i) = g' (q * 8 + i))
    (ha : ∀ q, q < w * h → a q = a' q) :
    (process_iteration w h a b g).2 = (process_iteration w h a' b g').2 ∧
    (∀ p, p < w * h →
      (process_iteration w h a b g).1 p = (process_iteration w h a' b g').1 p) ∧
    (∀ p, w * h ≤ p → (process_iteration w h a b g).1 p = b p) := by
  have hpv : ∀ p, p < w * h → pixel_value w h a g p = pixel_value w h a' g' p :=
    fun p hp => pixel_value_congr w h a a' g g' p hp hg ha
  refine ⟨?_, ?_, ?_⟩
  · apply bool_eq_of_iff
    rw [process_iteration_snd, process_iteration_snd]
    constructor
    · intro hall p hp
      have hplt := (mem_seq_processed_iff_lt w h p hw hh).1
        ((mem_processed_iff w h p).1 hp)
      rw [← hpv p hplt, ← ha p hplt]
      exact hall p hp
    · intro hall p hp
      have hplt := (mem_seq_processed_iff_lt w h p hw hh).1
        ((mem_processed_iff w h p).1 hp)
      rw [hpv p hplt, ha p hplt]
      exact hall p hp
  · intro p hp
    have hmem := (mem_processed_iff w h p).2
      ((mem_seq_processed_iff_lt w h p hw hh).2 hp)
    rw [process_iteration_fst, process_iteration_fst]
    dsimp only
    rw [if_pos hmem, if_pos hmem]
    exact hpv p hp
  · intro p hp
    rw [process_iteration_fst]
    dsimp only
    rw [if_neg fun hc => by
      have := (mem_seq_processed_iff_lt w h p hw hh).1
        ((mem_processed_iff w h p).1 hc)
      omega]

theorem c9_in_bounds_access_only_witness :
    ((1 : ℕ) ≤ 1 ∧ (1 : ℕ) ≤ 1) ∧
    ((process_iteration 1 1 (fun _ => (5 : ℚ)) (fun _ => 0)
        (fun _ => 0)).2 =
      (process_iteration 1 1 (fun q => if q < 1 then (5 : ℚ) else 7)
        (fun _ => 0) (fun k => (k : ℚ))).2 ∧
    (∀ p, p < 1 * 1 →
      (process_iteration 1 1 (fun _ => (5 : ℚ)) (fun _ => 0)
          (fun _ => 0)).1 p =
        (process_iteration 1 1 (fun q => if q < 1 then (5 : ℚ) else 7)
          (fun _ => 0) (fun k => (k : ℚ))).1 p) ∧
    (∀ p, 1 * 1 ≤ p →
      (process_iteration 1 1 (fun _ => (5 : ℚ)) (fun _ => 0)
        (fun _ => 0)).1 p = (fun _ => (0 : ℚ)) p)) :=
  ⟨⟨by decide, by decide⟩,
    c9_in_bounds_access_only 1 1 (fun _ => 0) (fun k => (k : ℚ))
      (fun _ => 5) (fun q => if q < 1 then (5 : ℚ) else 7) (fun _ => 0)
      (by decide) (by decide)
      (by
        intro q i hq hi hbad
        exfalso
        have hq0 : q = 0 := by omega
        subst hq0
        revert hbad
        interval_cases i <;> decide)
      (by
        intro q hq
        show (5 : ℚ) = if q < 1 then 5 else 7
        rw [if_pos (show q < 1 by omega)])⟩

/-- C3: when the color field lies in `[0,1]^3` — so that every in-bounds
affinity entry computed by `calc_g` lies in `[0,1]` — and both initial
strength buffers lie in `[-1,1]`, every cell's strength magnitude stays
within `[0,1]` after every iteration step. -/
theorem c3_magnitude_invariant (w h : ℕ) (colors junkG a b : ℕ → ℝ)
    (hc : ∀ k, k < w * h * 3 → 0 ≤ colors k ∧ colors k ≤ 1)
    (ha : ∀ p, p < w * h → |a p| ≤ 1) (hb : ∀ p, p < w * h → |b p| ≤ 1) :
    ∀ n p, p < w * h →
      |(buffers_after w h (g_array_full junkG w h colors) a b n).1 p| ≤ 1 := by
  intro n p hp
  exact (buffers_after_bounded w h _ a b
    (g_array_full_bounds junkG w h colors hc) ha hb n).1 p hp

theorem c3_magnitude_invariant_witness :
    ((0 : ℝ) ≤ 0 ∧ (0 : ℝ) ≤ 1 ∧ |(0 : ℝ)| ≤ 1) ∧
    ∀ n p, p < 1 * 1 →
      |(buffers_after 1 1 (g_array_full (fun _ => 0) 1 1 (fun _ => 0))
        (fun _ => 0) (fun _ => 0) n).1 p| ≤ 1 :=
  ⟨⟨by norm_num, by norm_num, by norm_num⟩,
    c3_magnitude_invariant 1 1 (fun _ => 0) (fun _ => 0) (fun _ => 0)
      (fun _ => 0)
      (fun k _ => ⟨by norm_num, by norm_num⟩)
      (fun p _ => by norm_num) (fun p _ => by norm_num)⟩

/-- C7: for every pixel and every in-bounds neighbor in its
8-neighborhood, the precomputed affinity weight equals `1 - C / sqrt 3`,
where `C` is the Euclidean distance between the two cells' 3-channel
colors.  (The source divides by its decimal constant `1.732050808`, which
as a 32-bit `float` is bit-identical to `sqrtf(3.0f)` and is hence
idealized as `Real.sqrt 3` — see `maxC`.)  The result is not clamped — in
particular it is negative whenever `C` exceeds `sqrt 3`, as the concrete
instance with colors `(0,0,0)` and `(2,2,2)` shows. -/
theorem c7_affinity_formula (w h : ℕ) (image_array : ℕ → ℝ) (x y i : ℕ)
    (hx : x < w) (hy : y < h) (hb : inBoundsDir w h x y i) :
    (calc_g_entry w image_array x y i =
      1 - Real.sqrt
          ((image_array ((x + y * w) * 3) -
              image_array ((((x : ℤ) + nx8 i).toNat +
                ((y : ℤ) + ny8 i).toNat * w) * 3)) *
            (image_array ((x + y * w) * 3) -
              image_array ((((x : ℤ) + nx8 i).toNat +
                ((y : ℤ) + ny8 i).toNat * w) * 3)) +
          (image_array ((x + y * w) * 3 + 1) -
              image_array ((((x : ℤ) + nx8 i).toNat +
                ((y : ℤ) + ny8 i).toNat * w) * 3 + 1)) *
            (image_array ((x + y * w) * 3 + 1) -
              image_array ((((x : ℤ) + nx8 i).toNat +
                ((y : ℤ) + ny8 i).toNat * w) * 3 + 1)) +
          (image_array ((x + y * w) * 3 + 2) -
              image_array ((((x : ℤ) + nx8 i).toNat +
                ((y : ℤ) + ny8 i).toNat * w) * 3 + 2)) *
            (image_array ((x + y * w) * 3 + 2) -
              image_array ((((x : ℤ) + nx8 i).toNat +
                ((y : ℤ) + ny8 i).toNat * w) * 3 + 2))) /
        Real.sqrt 3) ∧
    calc_g_entry 2 (fun k => if k < 3 then (0 : ℝ) else 2) 0 0 4 < 0 := by
  constructor
  · obtain ⟨h1, h2, h3, h4⟩ := hb
    have hsplit : (((x : ℤ) + nx8 i) + ((y : ℤ) + ny8 i) * (w : ℤ)) =
        ((((x : ℤ) + nx8 i).toNat +
          ((y : ℤ) + ny8 i).toNat * w : ℕ) : ℤ) := by
      push_cast
      rw [Int.toNat_of_nonneg h1, Int.toNat_of_nonneg h3]
    simp only [calc_g_entry, maxC, hsplit, Int.toNat_natCast]
  · have hmaxC_pos : (0 : ℝ) < maxC := by
      rw [maxC]; exact Real.sqrt_pos.2 (by norm_num)
    have hlt : maxC < Real.sqrt 12 := by
      rw [maxC]
      exact Real.sqrt_lt_sqrt (by norm_num) (by norm_num)
    have hD : calc_g_entry 2 (fun k => if k < 3 then (0 : ℝ) else 2) 0 0 4 =
        1 - Real.sqrt 12 / maxC := by
      simp only [calc_g_entry]
      norm_num [nx8, ny8]
    rw [hD]
    have hd1 : 1 < Real.sqrt 12 / maxC := (one_lt_div hmaxC_pos).2 hlt
    linarith

theorem c7_affinity_formula_witness :
    ((0 : ℕ) < 2 ∧ (0 : ℕ) < 1 ∧ inBoundsDir 2 1 0 0 4) ∧
    ((calc_g_entry 2 (fun _ => (0 : ℝ)) 0 0 4 =
      1 - Real.sqrt
          (((fun _ => (0 : ℝ)) ((0 + 0 * 2) * 3) -
              (fun _ => (0 : ℝ)) ((((0 : ℤ) + nx8 4).toNat +
                ((0 : ℤ) + ny8 4).toNat * 2) * 3)) *
            ((fun _ => (0 : ℝ)) ((0 + 0 * 2) * 3) -
              (fun _ => (0 : ℝ)) ((((0 : ℤ) + nx8 4).toNat +
                ((0 : ℤ) + ny8 4).toNat * 2) * 3)) +
          ((fun _ => (0 : ℝ)) ((0 + 0 * 2) * 3 + 1) -
              (fun _ => (0 : ℝ)) ((((0 : ℤ) + nx8 4).toNat +
                ((0 : ℤ) + ny8 4).toNat * 2) * 3 + 1)) *
            ((fun _ => (0 : ℝ)) ((0 + 0 * 2) * 3 + 1) -
              (fun _ => (0 : ℝ)) ((((0 : ℤ) + nx8 4).toNat +
                ((0 : ℤ) + ny8 4).toNat * 2) * 3 + 1)) +
          ((fun _ => (0 : ℝ)) ((0 + 0 * 2) * 3 + 2) -
              (fun _ => (0 : ℝ)) ((((0 : ℤ) + nx8 4).toNat +
                ((0 : ℤ) + ny8 4).toNat * 2) * 3 + 2)) *
            ((fun _ => (0 : ℝ)) ((0 + 0 * 2) * 3 + 2) -
              (fun _ => (0 : ℝ)) ((((0 : ℤ) + nx8 4).toNat +
                ((0 : ℤ) + ny8 4).toNat * 2) * 3 + 2))) /
        Real.sqrt 3) ∧
    calc_g_entry 2 (fun k => if k < 3 then (0 : ℝ) else 2) 0 0 4 < 0) :=
  ⟨⟨by decide, by decide, by decide⟩,
    c7_affinity_formula 2 1 (fun _ => 0) 0 0 4 (by decide) (by decide)
      (by decide)⟩

/-- C1 counterexample: `process_file` does not fail fast on mismatched
grid dimensions.  With a `1×1` source image and a `2×2` overlay the
widths differ, yet the engine reports no configuration error and
proceeds with segmentation all the way to an output image. -/
theorem c1_counterexample :
    Image.width { width := 2, height := 2, rows := fun _ _ => ⟨0, 0, 0, 0⟩ } ≠
      Image.width
        { width := 1, height := 1, rows := fun _ _ => ⟨10, 20, 30, 255⟩ } ∧
    ∃ out : Image,
      process_file 0 (fun _ => 0)
          { width := 1, height := 1, rows := fun _ _ => ⟨10, 20, 30, 255⟩ }
          { width := 2, height := 2, rows := fun _ _ => ⟨0, 0, 0, 0⟩ } =
        .ok out :=
  ⟨by decide, _, rfl⟩

/-- C1 amended: the engine performs no dimension or size check at all.
For every pair of input grids — mismatched, zero-sized or otherwise —
`process_file` reports no configuration error and proceeds with
segmentation, producing an output image of the *source image's*
dimensions (out-of-bounds overlay samples are read through `get_pixel`'s
default pixel). -/
theorem c1_no_dimension_check (junk_alpha : ℕ) (junkG : ℕ → ℝ)
    (image overlay : Image) :
    ∃ out : Image, process_file junk_alpha junkG image overlay = .ok out ∧
      out.width = image.width ∧ out.height = image.height :=
  ⟨_, rfl, rfl, rfl⟩

end Cropsicle
